import Mathlib

/-!
Verification of the SQL statement-normalization pass (`normalizer.go`).

The pass rewrites constant literals (and IN / NOT IN literal tuples) of an
already-parsed SQL statement into named placeholders, populating a
bind-variable map.  The AST node types, the generic `Walk` traversal and the
typed-value subsystem (`sqltypes`, `querypb`) live in other files of the
repository and are modelled here from the specification; `Normalize`,
`sqlToBindvar`, `newName` and `GetBindvars` are embedded directly from the
source.  Go maps are modelled as association lists whose most recent insertion
comes first (insertion shadows), and string sets as lists read up to
membership.  Strings are treated at character granularity.
-/

namespace SqlNorm

/-- Modelled from the spec: the literal kinds of a `SQLVal` AST node
(string, integer, float, hexadecimal numeral, hexadecimal string, bit value)
together with the scalar-placeholder kind `valArg`. -/
inductive ValType where
  | strVal
  | intVal
  | floatVal
  | hexNum
  | hexVal
  | bitVal
  | valArg
deriving DecidableEq

/-- Modelled from the spec: the wire-format type tags of the typed-value
subsystem used by the normalizer: opaque byte strings, 64-bit signed
integers, 64-bit floats, and the aggregate tuple tag for list values. -/
inductive QType where
  | varBinary
  | int64
  | float64
  | tupleT
deriving DecidableEq

/-- Modelled from the spec: a bind variable: a type tag, the raw bytes of a
scalar value, and, for the tuple tag, the ordered list of element values
(each a tag plus raw bytes).  Scalar values keep the literal's raw text;
numeric kinds are validated on construction. -/
structure BindVariable where
  type : QType
  value : String
  values : List (QType × String)
deriving DecidableEq

/-- Modelled from the spec: the fragment of the SQL AST the normalizer
inspects.  `sqlVal` is a literal node (kind plus raw text), `listArg` a
list-placeholder reference, `comparison` a comparison expression with an
operator and two operands, `tuple` the parenthesized value list used as the
right operand of IN / NOT IN, and `node` any other AST node, kept opaque
except for its ordered children. -/
inductive Expr where
  | sqlVal (type : ValType) (val : String)
  | listArg (val : String)
  | comparison (op : String) (left right : Expr)
  | tuple (elems : List Expr)
  | node (children : List Expr)

mutual
def exprDecEq : (a b : Expr) → Decidable (a = b)
  | .sqlVal t v, .sqlVal t2 v2 =>
    match decEq t t2, decEq v v2 with
    | isTrue h1, isTrue h2 => isTrue (by rw [h1, h2])
    | isFalse h1, _ => isFalse (by intro hc; cases hc; exact h1 rfl)
    | _, isFalse h2 => isFalse (by intro hc; cases hc; exact h2 rfl)
  | .sqlVal _ _, .listArg _ => isFalse (by intro hc; cases hc)
  | .sqlVal _ _, .comparison _ _ _ => isFalse (by intro hc; cases hc)
  | .sqlVal _ _, .tuple _ => isFalse (by intro hc; cases hc)
  | .sqlVal _ _, .node _ => isFalse (by intro hc; cases hc)
  | .listArg _, .sqlVal _ _ => isFalse (by intro hc; cases hc)
  | .listArg v, .listArg v2 =>
    match decEq v v2 with
    | isTrue h1 => isTrue (by rw [h1])
    | isFalse h1 => isFalse (by intro hc; cases hc; exact h1 rfl)
  | .listArg _, .comparison _ _ _ => isFalse (by intro hc; cases hc)
  | .listArg _, .tuple _ => isFalse (by intro hc; cases hc)
  | .listArg _, .node _ => isFalse (by intro hc; cases hc)
  | .comparison _ _ _, .sqlVal _ _ => isFalse (by intro hc; cases hc)
  | .comparison _ _ _, .listArg _ => isFalse (by intro hc; cases hc)
  | .comparison o l r, .comparison o2 l2 r2 =>
    match decEq o o2, exprDecEq l l2, exprDecEq r r2 with
    | isTrue h1, isTrue h2, isTrue h3 => isTrue (by rw [h1, h2, h3])
    | isFalse h1, _, _ => isFalse (by intro hc; cases hc; exact h1 rfl)
    | _, isFalse h2, _ => isFalse (by intro hc; cases hc; exact h2 rfl)
    | _, _, isFalse h3 => isFalse (by intro hc; cases hc; exact h3 rfl)
  | .comparison _ _ _, .tuple _ => isFalse (by intro hc; cases hc)
  | .comparison _ _ _, .node _ => isFalse (by intro hc; cases hc)
  | .tuple _, .sqlVal _ _ => isFalse (by intro hc; cases hc)
  | .tuple _, .listArg _ => isFalse (by intro hc; cases hc)
  | .tuple _, .comparison _ _ _ => isFalse (by intro hc; cases hc)
  | .tuple es, .tuple es2 =>
    match exprListDecEq es es2 with
    | isTrue h1 => isTrue (by rw [h1])
    | isFalse h1 => isFalse (by intro hc; cases hc; exact h1 rfl)
  | .tuple _, .node _ => isFalse (by intro hc; cases hc)
  | .node _, .sqlVal _ _ => isFalse (by intro hc; cases hc)
  | .node _, .listArg _ => isFalse (by intro hc; cases hc)
  | .node _, .comparison _ _ _ => isFalse (by intro hc; cases hc)
  | .node _, .tuple _ => isFalse (by intro hc; cases hc)
  | .node cs, .node cs2 =>
    match exprListDecEq cs cs2 with
    | isTrue h1 => isTrue (by rw [h1])
    | isFalse h1 => isFalse (by intro hc; cases hc; exact h1 rfl)
def exprListDecEq : (a b : List Expr) → Decidable (a = b)
  | [], [] => isTrue rfl
  | [], _ :: _ => isFalse (by intro hc; cases hc)
  | _ :: _, [] => isFalse (by intro hc; cases hc)
  | a :: as, b :: bs =>
    match exprDecEq a b, exprListDecEq as bs with
    | isTrue h1, isTrue h2 => isTrue (by rw [h1, h2])
    | isFalse h1, _ => isFalse (by intro hc; cases hc; exact h1 rfl)
    | _, isFalse h2 => isFalse (by intro hc; cases hc; exact h2 rfl)
end

instance : DecidableEq Expr := exprDecEq

/-- Modelled from the spec: the AST alias for a parsed statement handed to
the normalizer. -/
abbrev Statement := Expr

/-- Modelled from the spec: the comparison-operator spelling of IN. -/
def inStr : String := "in"

/-- Modelled from the spec: the comparison-operator spelling of NOT IN. -/
def notInStr : String := "not in"

/-! ### Decimal rendering of the counter

The source synthesizes names with a decimal format directive; we model the
decimal rendering of a natural number explicitly and prove it injective,
which is what the collision-freedom arguments need. -/

/-- Character for a single decimal digit. -/
def digitToChar (d : Nat) : Char :=
  match d with
  | 0 => '0'
  | 1 => '1'
  | 2 => '2'
  | 3 => '3'
  | 4 => '4'
  | 5 => '5'
  | 6 => '6'
  | 7 => '7'
  | 8 => '8'
  | _ => '9'

/-- Numeric value of a decimal digit character (10 for non-digits). -/
def charToDigit (c : Char) : Nat :=
  match c with
  | '0' => 0
  | '1' => 1
  | '2' => 2
  | '3' => 3
  | '4' => 4
  | '5' => 5
  | '6' => 6
  | '7' => 7
  | '8' => 8
  | '9' => 9
  | _ => 10

theorem charToDigit_digitToChar (d : Nat) (h : d < 10) :
    charToDigit (digitToChar d) = d := by
  interval_cases d <;> rfl

/-- Little-endian digit characters of a positive number; the first argument
is fuel bounding the recursion depth. -/
def natDecAux : Nat → Nat → List Char
  | 0, _ => []
  | fuel + 1, n => if n = 0 then [] else digitToChar (n % 10) :: natDecAux fuel (n / 10)

/-- Decimal rendering of a natural number, as produced by the integer format
directive used for synthesized names. -/
def natDec (n : Nat) : String :=
  if n = 0 then "0" else String.mk (natDecAux n n).reverse

/-- Value of a little-endian decimal digit string. -/
def digitsVal : List Char → Nat
  | [] => 0
  | c :: cs => charToDigit c + 10 * digitsVal cs

theorem digitsVal_natDecAux : ∀ fuel n, n ≤ fuel → digitsVal (natDecAux fuel n) = n := by
  intro fuel
  induction fuel with
  | zero =>
    intro n h
    have hn : n = 0 := Nat.le_zero.mp h
    simp [natDecAux, hn, digitsVal]
  | succ f ih =>
    intro n h
    by_cases hn : n = 0
    · simp [natDecAux, hn, digitsVal]
    · have hdiv : n / 10 ≤ f := by
        have : n / 10 < n := Nat.div_lt_self (Nat.pos_of_ne_zero hn) (by norm_num)
        omega
      simp only [natDecAux, hn, if_false, digitsVal]
      rw [ih (n / 10) hdiv, charToDigit_digitToChar (n % 10) (Nat.mod_lt n (by norm_num))]
      omega

theorem string_mk_inj {a b : List Char} (h : String.mk a = String.mk b) : a = b := by
  injection h

theorem natDec_inj {a b : Nat} (h : natDec a = natDec b) : a = b := by
  by_cases ha : a = 0 <;> by_cases hb : b = 0
  · omega
  · exfalso
    simp only [natDec, ha, if_true, hb, if_false] at h
    have hd := string_mk_inj h
    have : natDecAux b b = ['0'] := by
      have := congrArg List.reverse hd
      simpa using this.symm
    have hv := digitsVal_natDecAux b b le_rfl
    rw [this] at hv
    simp [digitsVal, charToDigit] at hv
    omega
  · exfalso
    simp only [natDec, hb, if_true, ha, if_false] at h
    have hd := string_mk_inj h
    have : natDecAux a a = ['0'] := by
      have := congrArg List.reverse hd
      simpa using this
    have hv := digitsVal_natDecAux a a le_rfl
    rw [this] at hv
    simp [digitsVal, charToDigit] at hv
    omega
  · simp only [natDec, ha, hb, if_false] at h
    have hd := string_mk_inj h
    have hrev : natDecAux a a = natDecAux b b := by
      have := congrArg List.reverse hd
      simpa using this
    have hva := digitsVal_natDecAux a a le_rfl
    have hvb := digitsVal_natDecAux b b le_rfl
    rw [hrev] at hva
    omega

theorem string_append_inj {p a b : String} (h : p ++ a = p ++ b) : a = b := by
  have hd : p.data ++ a.data = p.data ++ b.data := by
    have h1 := congrArg String.data h
    simpa [String.data_append] using h1
  have := List.append_cancel_left hd
  cases a; cases b; simp at this; simp [this]

theorem natDec_append_inj {p : String} {a b : Nat}
    (h : p ++ natDec a = p ++ natDec b) : a = b :=
  natDec_inj (string_append_inj h)

/-! ### Typed-value conversion -/

/-- Decimal digit test. -/
def isDigit (c : Char) : Bool :=
  charToDigit c < 10

/-- Parse a nonempty all-digit character list as a natural number
(most significant digit first); fails on the empty list and on any
non-digit character. -/
def parseDigits : List Char → Option Nat
  | [] => none
  | [c] => if isDigit c then some (charToDigit c) else none
  | c :: c2 :: cs =>
    if isDigit c then
      match parseDigits (c2 :: cs) with
      | none => none
      | some m => some (charToDigit c * 10 ^ (c2 :: cs).length + m)
    else none

/-- Digit-sequence part of the integer parse: the parsed digits give the
magnitude, negated under a leading minus sign, and the value is rejected
when it leaves the 64-bit signed range. -/
def parseInt64Core (neg : Bool) (digits : List Char) : Option Int :=
  match parseDigits digits with
  | none => none
  | some n =>
    if -(2 ^ 63) ≤ (if neg then -(n : Int) else (n : Int)) ∧
        (if neg then -(n : Int) else (n : Int)) ≤ 2 ^ 63 - 1 then
      some (if neg then -(n : Int) else (n : Int))
    else none

/-- Modelled from the spec: the integer parse performed by the typed-value
subsystem when a 64-bit signed integer is constructed: an optional sign
followed by at least one decimal digit, rejected when the value leaves the
64-bit signed range. -/
def parseInt64 (s : String) : Option Int :=
  match s.data with
  | '-' :: rest => parseInt64Core true rest
  | '+' :: rest => parseInt64Core false rest
  | cs => parseInt64Core false cs

/-- Exponent suffix of a decimal float: either nothing, or an exponent
marker followed by an optionally signed nonempty digit string. -/
def floatExpOk : List Char → Bool
  | [] => true
  | c :: rest =>
    if c = 'e' ∨ c = 'E' then
      match rest with
      | '-' :: ds => (parseDigits ds).isSome
      | '+' :: ds => (parseDigits ds).isSome
      | ds => (parseDigits ds).isSome
    else false

/-- Modelled from the spec: the float parse performed by the typed-value
subsystem when a 64-bit float is constructed: an optionally signed decimal
mantissa (digits, digits with a fractional part, or a bare fractional part
with at least one digit overall) with an optional exponent.  The resulting
IEEE value is kept abstract as the validated raw text; special spellings
and overflow behavior of the external parser are outside the model. -/
def parseFloat64Ok (s : String) : Bool :=
  let body : List Char :=
    match s.data with
    | '-' :: rest => rest
    | '+' :: rest => rest
    | cs => cs
  let intPart := body.takeWhile isDigit
  let rest := body.dropWhile isDigit
  match rest with
  | '.' :: rest2 =>
    let frac := rest2.takeWhile isDigit
    let rest3 := rest2.dropWhile isDigit
    (intPart ≠ [] ∨ frac ≠ []) ∧ floatExpOk rest3
  | _ => intPart ≠ [] ∧ floatExpOk rest

/-- Modelled from the spec: value construction of the typed-value subsystem
for the scalar kinds used by the normalizer.  Opaque byte strings are taken
verbatim; integer and float construction validates the raw text and fails
(with no partially built value) when the parse fails; the tuple tag has no
scalar constructor. -/
def newValue (t : QType) (v : String) : Option (QType × String) :=
  match t with
  | .varBinary => some (.varBinary, v)
  | .int64 => if (parseInt64 v).isSome then some (.int64, v) else none
  | .float64 => if parseFloat64Ok v then some (.float64, v) else none
  | .tupleT => none

/-- Conversion of an AST node to a bind variable, embedded from
`sqlToBindvar` in the source: a string-kind literal becomes an opaque
byte-string value, an integer-kind (resp. float-kind) literal becomes a
64-bit integer (resp. float) value when its raw text parses, and every
other node yields no bind variable. -/
def sqlToBindvar : Expr → Option BindVariable
  | .sqlVal t v =>
    let r : Option (QType × String) :=
      match t with
      | .strVal => newValue .varBinary v
      | .intVal => newValue .int64 v
      | .floatVal => newValue .float64 v
      | _ => none
    match r with
    | none => none
    | some tv => some ⟨tv.1, tv.2, []⟩
  | _ => none

/-- Element-wise conversion of a tuple's values, embedded from the loop in
the IN / NOT IN branch of `Normalize`: fails (discarding the partial list)
as soon as one element fails to convert, otherwise keeps element order. -/
def tupleToVals : List Expr → Option (List (QType × String))
  | [] => some []
  | e :: es =>
    match sqlToBindvar e with
    | none => none
    | some b =>
      match tupleToVals es with
      | none => none
      | some t => some ((b.type, b.value) :: t)

/-! ### Existing-placeholder scanner -/

/-- Character-level model of the byte-slice suffix operation used to strip
placeholder sigils. -/
def strDrop (s : String) (k : Nat) : String :=
  String.mk (s.data.drop k)

mutual
/-- Names of the placeholders referenced in a statement, embedded from
`GetBindvars` in the source: a pre-order scan collecting scalar references
(a literal node of placeholder kind, its leading sigil stripped) and list
references (their two leading sigil characters stripped); the scan never
rewrites anything.  The source returns a set; we return the list of
references in visit order, read up to membership. -/
def GetBindvars : Expr → List String
  | .sqlVal t v => if t = .valArg then [strDrop v 1] else []
  | .listArg v => [strDrop v 2]
  | .comparison _ l r => GetBindvars l ++ GetBindvars r
  | .tuple es => getBindvarsList es
  | .node cs => getBindvarsList cs
def getBindvarsList : List Expr → List String
  | [] => []
  | e :: es => GetBindvars e ++ getBindvarsList es
end

/-! ### Name allocator -/

/-- One probing run of the allocator loop, embedded from `newName` in the
source with explicit fuel: starting at `counter`, the first name of the
form prefix-plus-decimal-counter that is not reserved is chosen, reserved,
and returned together with the next counter value. -/
def newNameAux (pfx : String) (reserved : List String) :
    Nat → Nat → Option (String × Nat × List String)
  | 0, _ => none
  | fuel + 1, counter =>
    let nm := pfx ++ natDec counter
    if nm ∈ reserved then newNameAux pfx reserved fuel (counter + 1)
    else some (nm, counter + 1, nm :: reserved)

/-- The allocator, embedded from `newName` in the source.  The source loops
until a free name is found; `reserved.length + 1` probes always suffice
(`newNameAux_some` below), so the fallback branch is unreachable. -/
def newName (pfx : String) (counter : Nat) (reserved : List String) :
    String × Nat × List String :=
  match newNameAux pfx reserved (reserved.length + 1) counter with
  | some r => r
  | none => (pfx ++ natDec counter, counter + 1, (pfx ++ natDec counter) :: reserved)

theorem exists_probe_miss (pfx : String) (counter : Nat) (reserved : List String) :
    ∃ i, i ≤ reserved.length ∧ pfx ++ natDec (counter + i) ∉ reserved := by
  by_contra hc
  push_neg at hc
  set l := (List.range (reserved.length + 1)).map (fun i => pfx ++ natDec (counter + i)) with hl
  have hnd : l.Nodup := by
    refine List.Nodup.map ?_ (List.nodup_range _)
    intro i j hij
    have := natDec_append_inj hij
    omega
  have hsub : l ⊆ reserved := by
    intro x hx
    rw [hl, List.mem_map] at hx
    obtain ⟨i, hi, hxeq⟩ := hx
    rw [List.mem_range] at hi
    rw [← hxeq]
    exact hc i (by omega)
  have hle : l.length ≤ reserved.length := by
    calc l.length = l.toFinset.card := (List.toFinset_card_of_nodup hnd).symm
      _ ≤ reserved.toFinset.card := Finset.card_le_card (fun x hx => by
          rw [List.mem_toFinset] at hx ⊢; exact hsub hx)
      _ ≤ reserved.length := List.toFinset_card_le _
  rw [hl] at hle
  simp at hle

theorem newNameAux_spec (pfx : String) (reserved : List String) :
    ∀ fuel counter, (∃ i, i < fuel ∧ pfx ++ natDec (counter + i) ∉ reserved) →
    ∃ m, counter ≤ m ∧
      (∀ j, counter ≤ j → j < m → pfx ++ natDec j ∈ reserved) ∧
      pfx ++ natDec m ∉ reserved ∧
      newNameAux pfx reserved fuel counter =
        some (pfx ++ natDec m, m + 1, (pfx ++ natDec m) :: reserved) := by
  intro fuel
  induction fuel with
  | zero =>
    intro counter h
    obtain ⟨i, hi, _⟩ := h
    omega
  | succ f ih =>
    intro counter h
    by_cases hm : pfx ++ natDec counter ∈ reserved
    · obtain ⟨i, hi, hmiss⟩ := h
      have hi0 : i ≠ 0 := by
        intro h0
        apply hmiss
        rw [h0, Nat.add_zero]
        exact hm
      have hrec : ∃ i2, i2 < f ∧ pfx ++ natDec (counter + 1 + i2) ∉ reserved := by
        refine ⟨i - 1, by omega, ?_⟩
        have heq : counter + 1 + (i - 1) = counter + i := by omega
        rw [heq]
        exact hmiss
      obtain ⟨m, hm1, hm2, hm3, hm4⟩ := ih (counter + 1) hrec
      refine ⟨m, by omega, ?_, hm3, ?_⟩
      · intro j hj1 hj2
        rcases Nat.eq_or_lt_of_le hj1 with hj | hj
        · rw [← hj]; exact hm
        · exact hm2 j hj hj2
      · simp only [newNameAux, hm, if_true]
        exact hm4
    · refine ⟨counter, le_rfl, by omega, hm, ?_⟩
      simp only [newNameAux, hm, if_false]

/-- Full specification of the allocator: it returns the name formed from
the lowest counter value at least the starting one whose rendering is not
reserved, reserves exactly that name, and returns the successful counter
value plus one. -/
theorem newName_spec (pfx : String) (counter : Nat) (reserved : List String) :
    ∃ m, counter ≤ m ∧
      (∀ j, counter ≤ j → j < m → pfx ++ natDec j ∈ reserved) ∧
      pfx ++ natDec m ∉ reserved ∧
      newName pfx counter reserved =
        (pfx ++ natDec m, m + 1, (pfx ++ natDec m) :: reserved) := by
  obtain ⟨i, hi, hmiss⟩ := exists_probe_miss pfx counter reserved
  obtain ⟨m, h1, h2, h3, h4⟩ := newNameAux_spec pfx reserved (reserved.length + 1) counter
    ⟨i, by omega, hmiss⟩
  exact ⟨m, h1, h2, h3, by simp only [newName, h4]⟩

/-! ### The rewrite pass -/

/-- Call-scoped state of one normalization pass: the name counter, the
reserved-name set, the dedup index from value key to assigned name, and the
caller's bind-variable map.  The two maps are association lists whose most
recent insertion comes first. -/
structure NState where
  counter : Nat
  reserved : List String
  vals : List (String × String)
  binds : List (String × BindVariable)
deriving DecidableEq

/-- Dedup key of a convertible literal, embedded from the key computation
in `Normalize`: string-kind literals (the only ones converted to the opaque
byte-string type) are prefixed with a quote character so that a string and
a number with the same raw text do not collide. -/
def dedupKey (t : ValType) (v : String) : String :=
  if t = .strVal then "\x27" ++ v else v

mutual
/-- One normalization traversal, embedded from the `Walk` callback of
`Normalize` together with the traversal facility it drives (the facility is
modelled from the spec: pre-order visit, children of the possibly rewritten
node are visited left to right).  A convertible literal is rewritten to a
scalar placeholder, reusing the name recorded in the dedup index when its
key was seen before and otherwise allocating a fresh name and inserting a
bind-map entry; an IN / NOT IN comparison whose right operand is a tuple
with every element convertible gets a fresh (never deduplicated) list
placeholder; every other node is left as is and its children are visited. -/
def walkNorm (pfx : String) (st : NState) : Expr → NState × Expr
  | .sqlVal t v =>
    match sqlToBindvar (.sqlVal t v) with
    | none => (st, .sqlVal t v)
    | some bval =>
      match (st.vals.lookup (dedupKey t v) : Option String) with
      | some nm => (st, .sqlVal .valArg (":" ++ nm))
      | none =>
        let r := newName pfx st.counter st.reserved
        (⟨r.2.1, r.2.2, (dedupKey t v, r.1) :: st.vals, (r.1, bval) :: st.binds⟩,
          .sqlVal .valArg (":" ++ r.1))
  | .listArg v => (st, .listArg v)
  | .comparison op l (.tuple es) =>
    if op = inStr ∨ op = notInStr then
      match tupleToVals es with
      | some tvs =>
        let r := newName pfx st.counter st.reserved
        let st1 : NState :=
          ⟨r.2.1, r.2.2, st.vals, (r.1, ⟨.tupleT, "", tvs⟩) :: st.binds⟩
        let pl := walkNorm pfx st1 l
        (pl.1, .comparison op pl.2 (.listArg ("::" ++ r.1)))
      | none =>
        let pl := walkNorm pfx st l
        let pr := walkNormList pfx pl.1 es
        (pr.1, .comparison op pl.2 (.tuple pr.2))
    else
      let pl := walkNorm pfx st l
      let pr := walkNormList pfx pl.1 es
      (pr.1, .comparison op pl.2 (.tuple pr.2))
  | .comparison op l (.sqlVal t v) =>
    let pl := walkNorm pfx st l
    let pr := walkNorm pfx pl.1 (.sqlVal t v)
    (pr.1, .comparison op pl.2 pr.2)
  | .comparison op l (.listArg v) =>
    let pl := walkNorm pfx st l
    let pr := walkNorm pfx pl.1 (.listArg v)
    (pr.1, .comparison op pl.2 pr.2)
  | .comparison op l (.comparison op2 l2 r2) =>
    let pl := walkNorm pfx st l
    let pr := walkNorm pfx pl.1 (.comparison op2 l2 r2)
    (pr.1, .comparison op pl.2 pr.2)
  | .comparison op l (.node cs) =>
    let pl := walkNorm pfx st l
    let pr := walkNorm pfx pl.1 (.node cs)
    (pr.1, .comparison op pl.2 pr.2)
  | .tuple es =>
    let p := walkNormList pfx st es
    (p.1, .tuple p.2)
  | .node cs =>
    let p := walkNormList pfx st cs
    (p.1, .node p.2)
def walkNormList (pfx : String) (st : NState) : List Expr → NState × List Expr
  | [] => (st, [])
  | e :: es =>
    let p := walkNorm pfx st e
    let q := walkNormList pfx p.1 es
    (q.1, p.2 :: q.2)
end

/-- The normalization pass, embedded from `Normalize` in the source: the
statement is pre-scanned for already-referenced placeholder names, the
counter starts at one with an empty dedup index, and one traversal rewrites
the statement and extends the caller's bind-variable map.  The source
mutates its arguments in place and returns nothing; the mutated statement
and map are returned here. -/
def Normalize (stmt : Statement) (bindVars : List (String × BindVariable))
    (pfx : String) : Expr × List (String × BindVariable) :=
  let st : NState := ⟨1, GetBindvars stmt, [], bindVars⟩
  let r := walkNorm pfx st stmt
  (r.2, r.1.binds)

/-! ### Counting occurrences -/

/-- The IN / NOT IN operator test of the rewrite rule. -/
def isInOp (op : String) : Prop := op = inStr ∨ op = notInStr

instance (op : String) : Decidable (isInOp op) := by
  unfold isInOp
  infer_instance

/-- Whether an expression is a tuple all of whose elements convert, i.e. the
right-operand condition under which an IN / NOT IN comparison is rewritten
to a list placeholder.  The decision is a pure function of the tree. -/
def tupleConv : Expr → Bool
  | .tuple es => (tupleToVals es).isSome
  | _ => false

mutual
/-- Number of scalar-placeholder references carrying a given name in a
tree. -/
def cntArg (n : String) : Expr → Nat
  | .sqlVal t v => if t = .valArg ∧ v = ":" ++ n then 1 else 0
  | .listArg _ => 0
  | .comparison _ l r => cntArg n l + cntArg n r
  | .tuple es => cntArgList n es
  | .node cs => cntArgList n cs
def cntArgList (n : String) : List Expr → Nat
  | [] => 0
  | e :: es => cntArg n e + cntArgList n es
end

mutual
/-- Number of convertible literals with a given dedup key occurring outside
the tuples that the pass absorbs into list placeholders. -/
def scKey (k : String) : Expr → Nat
  | .sqlVal t v => if (sqlToBindvar (.sqlVal t v)).isSome ∧ dedupKey t v = k then 1 else 0
  | .listArg _ => 0
  | .comparison op l r =>
    scKey k l + (if isInOp op ∧ tupleConv r then 0 else scKey k r)
  | .tuple es => scKeyList k es
  | .node cs => scKeyList k cs
def scKeyList (k : String) : List Expr → Nat
  | [] => 0
  | e :: es => scKey k e + scKeyList k es
end

mutual
/-- Number of occurrences of one specific convertible literal (kind and raw
text) outside the tuples that the pass absorbs into list placeholders. -/
def scLit (t : ValType) (v : String) : Expr → Nat
  | .sqlVal t2 v2 => if t2 = t ∧ v2 = v then 1 else 0
  | .listArg _ => 0
  | .comparison op l r =>
    scLit t v l + (if isInOp op ∧ tupleConv r then 0 else scLit t v r)
  | .tuple es => scLitList t v es
  | .node cs => scLitList t v cs
def scLitList (t : ValType) (v : String) : List Expr → Nat
  | [] => 0
  | e :: es => scLit t v e + scLitList t v es
end

/-! ### Association-list helpers -/

theorem lookup_append_of_not_key {α : Type} {k : String} :
    ∀ {a b : List (String × α)}, k ∉ a.map Prod.fst →
    List.lookup k (a ++ b) = List.lookup k b := by
  intro a
  induction a with
  | nil => intro b _; rfl
  | cons p ps ih =>
    intro b h
    simp only [List.map_cons, List.mem_cons] at h
    push_neg at h
    have hne : (k == p.1) = false := by
      simp only [beq_eq_false_iff_ne, ne_eq]
      exact h.1
    cases p with
    | mk k2 v2 =>
      simp only [List.cons_append, List.lookup_cons]
      simp only at hne
      rw [hne]
      exact ih h.2

theorem lookup_isSome_of_key {α : Type} {k : String} :
    ∀ {a : List (String × α)}, k ∈ a.map Prod.fst →
    (List.lookup k a).isSome = true := by
  intro a
  induction a with
  | nil => intro h; simp at h
  | cons p ps ih =>
    intro h
    cases p with
    | mk k2 v2 =>
      simp only [List.lookup_cons]
      by_cases hk : k == k2
      · rw [hk]
        rfl
      · simp only [List.map_cons, List.mem_cons] at h
        rcases h with h | h
        · simp only at hk
          simp [h] at hk
        · rw [Bool.of_not_eq_true hk]
          exact ih h

theorem lookup_mem_keys {α : Type} {k : String} {v : α} :
    ∀ {a : List (String × α)}, List.lookup k a = some v → k ∈ a.map Prod.fst := by
  intro a
  induction a with
  | nil => intro h; simp [List.lookup] at h
  | cons p ps ih =>
    intro h
    cases p with
    | mk k2 v2 =>
      simp only [List.lookup_cons] at h
      by_cases hk : k == k2
      · have : k = k2 := by simpa using hk
        simp [this]
      · rw [Bool.of_not_eq_true hk] at h
        simp only [List.map_cons, List.mem_cons]
        exact Or.inr (ih h)

/-! ### Shape lemmas for conversion -/

theorem sqlToBindvar_some_shape {e : Expr} {b : BindVariable}
    (h : sqlToBindvar e = some b) :
    ∃ t v, e = .sqlVal t v ∧ b = ⟨b.type, v, []⟩ ∧ t ≠ .valArg ∧
      dedupKey t v = (if b.type = .varBinary then "\x27" ++ v else v) ∧
      (b.type = .varBinary ↔ t = .strVal) := by
  cases e with
  | sqlVal t v =>
    refine ⟨t, v, rfl, ?_⟩
    cases t with
    | strVal =>
      simp only [sqlToBindvar, newValue] at h
      cases h
      simp [dedupKey]
    | intVal =>
      simp only [sqlToBindvar, newValue] at h
      by_cases hp : (parseInt64 v).isSome = true
      · rw [if_pos hp] at h
        cases h
        simp [dedupKey]
      · rw [if_neg hp] at h
        cases h
    | floatVal =>
      simp only [sqlToBindvar, newValue] at h
      by_cases hp : parseFloat64Ok v = true
      · rw [if_pos hp] at h
        cases h
        simp [dedupKey]
      · rw [if_neg hp] at h
        cases h
    | hexNum => simp [sqlToBindvar] at h
    | hexVal => simp [sqlToBindvar] at h
    | bitVal => simp [sqlToBindvar] at h
    | valArg => simp [sqlToBindvar] at h
  | listArg v => simp [sqlToBindvar] at h
  | comparison op l r => simp [sqlToBindvar] at h
  | tuple es => simp [sqlToBindvar] at h
  | node cs => simp [sqlToBindvar] at h

theorem tupleToVals_cntArg {n : String} :
    ∀ {es : List Expr}, (tupleToVals es).isSome = true → cntArgList n es = 0 := by
  intro es
  induction es with
  | nil => intro _; rfl
  | cons e es ih =>
    intro h
    simp only [tupleToVals] at h
    cases hsb : sqlToBindvar e with
    | none => rw [hsb] at h; simp at h
    | some b =>
      rw [hsb] at h
      cases ht : tupleToVals es with
      | none => rw [ht] at h; simp at h
      | some t =>
        obtain ⟨t2, v2, he, _, hna, _⟩ := sqlToBindvar_some_shape hsb
        have h1 : cntArg n e = 0 := by
          rw [he]
          simp only [cntArg, ite_eq_right_iff]
          intro hc
          exact absurd hc.1 hna
        have h2 : cntArgList n es = 0 := ih (by rw [ht]; rfl)
        simp [cntArgList, h1, h2]

/-! ### The traversal invariant -/

/-- Well-formedness of the pass state: every name recorded in the dedup
index is reserved, and distinct keys are never mapped to the same name. -/
def WFst (st : NState) : Prop :=
  (∀ k n, st.vals.lookup k = some n → n ∈ st.reserved) ∧
  (∀ k1 k2 n, st.vals.lookup k1 = some n → st.vals.lookup k2 = some n → k1 = k2) ∧
  (∀ k n, st.vals.lookup k = some n → (List.lookup n st.binds).isSome = true)

/-- Relation between the state before and after part of a traversal: the
reserved set only grows, dedup-index entries persist, and the bind map is
extended on the left by entries whose keys are pairwise distinct and
reserved fresh during this part. -/
def stepOk (st st2 : NState) : Prop :=
  (∀ x, x ∈ st.reserved → x ∈ st2.reserved) ∧
  (∀ k n, st.vals.lookup k = some n → st2.vals.lookup k = some n) ∧
  ∃ a, st2.binds = a ++ st.binds ∧ (a.map Prod.fst).Nodup ∧
    ∀ n, n ∈ a.map Prod.fst → n ∉ st.reserved ∧ n ∈ st2.reserved

theorem stepOk_refl (st : NState) : stepOk st st :=
  ⟨fun _ h => h, fun _ _ h => h, [], rfl, List.nodup_nil, by simp⟩

theorem stepOk_trans {st1 st2 st3 : NState}
    (h1 : stepOk st1 st2) (h2 : stepOk st2 st3) : stepOk st1 st3 := by
  obtain ⟨m1, v1, a1, hb1, nd1, hf1⟩ := h1
  obtain ⟨m2, v2, a2, hb2, nd2, hf2⟩ := h2
  refine ⟨fun x h => m2 x (m1 x h), fun k n h => v2 k n (v1 k n h),
    a2 ++ a1, ?_, ?_, ?_⟩
  · rw [hb2, hb1, List.append_assoc]
  · rw [List.map_append]
    refine List.Nodup.append nd2 nd1 ?_
    intro x hx2 hx1
    exact (hf2 x hx2).1 ((hf1 x hx1).2)
  · intro n hn
    rw [List.map_append, List.mem_append] at hn
    rcases hn with h | h
    · exact ⟨fun hc => (hf2 n h).1 (m1 n hc), (hf2 n h).2⟩
    · exact ⟨(hf1 n h).1, m2 n ((hf1 n h).2)⟩

theorem newName_parts (pfx : String) (c : Nat) (R : List String) :
    (newName pfx c R).2.2 = (newName pfx c R).1 :: R ∧ (newName pfx c R).1 ∉ R := by
  obtain ⟨m, _, _, h3, h4⟩ := newName_spec pfx c R
  rw [h4]
  exact ⟨rfl, h3⟩

theorem lookup_cons_eq {α : Type} (k : String) (v : α) (l : List (String × α)) :
    List.lookup k ((k, v) :: l) = some v := by
  simp [List.lookup_cons]

theorem lookup_cons_ne {α : Type} {k k2 : String} (v : α) (l : List (String × α))
    (h : k ≠ k2) : List.lookup k ((k2, v) :: l) = List.lookup k l := by
  have hb : (k == k2) = false := by simpa using h
  simp [List.lookup_cons, hb]

theorem lookup_isSome_cons {α : Type} {k : String} (k2 : String) (v : α)
    {l : List (String × α)} (h : (List.lookup k l).isSome = true) :
    (List.lookup k ((k2, v) :: l)).isSome = true := by
  by_cases hk : k = k2
  · subst hk
    rw [lookup_cons_eq]
    rfl
  · rw [lookup_cons_ne _ _ hk]
    exact h

theorem sqlToBindvar_not_valArg {t : ValType} {v : String} {b : BindVariable}
    (h : sqlToBindvar (.sqlVal t v) = some b) : t ≠ .valArg := by
  intro hv
  subst hv
  simp [sqlToBindvar] at h

/-- Effect of the allocation performed for a qualifying tuple: the new name
is fresh, reserved, and mapped in the bind map; the dedup index is
untouched. -/
theorem stepOk_alloc_tuple (st : NState) (pfx : String) (bv : BindVariable) :
    stepOk st ⟨(newName pfx st.counter st.reserved).2.1,
               (newName pfx st.counter st.reserved).2.2, st.vals,
               ((newName pfx st.counter st.reserved).1, bv) :: st.binds⟩ ∧
    (WFst st → WFst ⟨(newName pfx st.counter st.reserved).2.1,
               (newName pfx st.counter st.reserved).2.2, st.vals,
               ((newName pfx st.counter st.reserved).1, bv) :: st.binds⟩) := by
  obtain ⟨hres, hfresh⟩ := newName_parts pfx st.counter st.reserved
  constructor
  · refine ⟨?_, fun k n h => h, [((newName pfx st.counter st.reserved).1, bv)],
      rfl, by simp, ?_⟩
    · intro x h
      rw [hres]
      exact List.mem_cons_of_mem _ h
    · intro n hn
      simp only [List.map_cons, List.map_nil, List.mem_singleton] at hn
      subst hn
      rw [hres]
      exact ⟨hfresh, List.mem_cons_self _ _⟩
  · intro hwf
    refine ⟨?_, hwf.2.1, ?_⟩
    · intro k n h
      rw [hres]
      exact List.mem_cons_of_mem _ (hwf.1 k n h)
    · intro k n h
      exact lookup_isSome_cons _ _ (hwf.2.2 k n h)

/-- Effect of the allocation performed for a convertible literal whose key
is not yet in the dedup index: the new name is fresh, reserved, recorded
for the key, and mapped in the bind map. -/
theorem stepOk_alloc_val (st : NState) (pfx : String) (bv : BindVariable) (dk : String)
    (hmiss : st.vals.lookup dk = none) :
    stepOk st ⟨(newName pfx st.counter st.reserved).2.1,
               (newName pfx st.counter st.reserved).2.2,
               (dk, (newName pfx st.counter st.reserved).1) :: st.vals,
               ((newName pfx st.counter st.reserved).1, bv) :: st.binds⟩ ∧
    (WFst st → WFst ⟨(newName pfx st.counter st.reserved).2.1,
               (newName pfx st.counter st.reserved).2.2,
               (dk, (newName pfx st.counter st.reserved).1) :: st.vals,
               ((newName pfx st.counter st.reserved).1, bv) :: st.binds⟩) := by
  obtain ⟨hres, hfresh⟩ := newName_parts pfx st.counter st.reserved
  constructor
  · refine ⟨?_, ?_, [((newName pfx st.counter st.reserved).1, bv)], rfl, by simp, ?_⟩
    · intro x h
      rw [hres]
      exact List.mem_cons_of_mem _ h
    · intro k n h
      by_cases hk : k = dk
      · rw [hk, hmiss] at h
        cases h
      · rw [lookup_cons_ne _ _ hk]
        exact h
    · intro n hn
      simp only [List.map_cons, List.map_nil, List.mem_singleton] at hn
      subst hn
      rw [hres]
      exact ⟨hfresh, List.mem_cons_self _ _⟩
  · intro hwf
    refine ⟨?_, ?_, ?_⟩
    · intro k n h
      by_cases hk : k = dk
      · subst hk
        rw [lookup_cons_eq] at h
        cases h
        rw [hres]
        exact List.mem_cons_self _ _
      · rw [lookup_cons_ne _ _ hk] at h
        rw [hres]
        exact List.mem_cons_of_mem _ (hwf.1 k n h)
    · intro k1 k2 n h1 h2
      by_cases hk1 : k1 = dk <;> by_cases hk2 : k2 = dk
      · rw [hk1, hk2]
      · subst hk1
        rw [lookup_cons_eq] at h1
        rw [lookup_cons_ne _ _ hk2] at h2
        cases h1
        exact absurd (hwf.1 k2 _ h2) hfresh
      · subst hk2
        rw [lookup_cons_eq] at h2
        rw [lookup_cons_ne _ _ hk1] at h1
        cases h2
        exact absurd (hwf.1 k1 _ h1) hfresh
      · rw [lookup_cons_ne _ _ hk1] at h1
        rw [lookup_cons_ne _ _ hk2] at h2
        exact hwf.2.1 k1 k2 n h1 h2
    · intro k n h
      by_cases hk : k = dk
      · subst hk
        rw [lookup_cons_eq] at h
        cases h
        rw [lookup_cons_eq]
        rfl
      · rw [lookup_cons_ne _ _ hk] at h
        exact lookup_isSome_cons _ _ (hwf.2.2 k n h)

/-- Composition of the invariant across the two children of an unrewritten
comparison node. -/
theorem walk_comp {op : String} {st st1 st2 : NState} {l l2 r r2 : Expr}
    (h1 : stepOk st st1 ∧ WFst st1 ∧ ∀ n, n ∉ st1.reserved → cntArg n l2 = cntArg n l)
    (h2 : stepOk st1 st2 ∧ WFst st2 ∧ ∀ n, n ∉ st2.reserved → cntArg n r2 = cntArg n r) :
    stepOk st st2 ∧ WFst st2 ∧
      ∀ n, n ∉ st2.reserved →
        cntArg n (.comparison op l2 r2) = cntArg n (.comparison op l r) := by
  refine ⟨stepOk_trans h1.1 h2.1, h2.2.1, ?_⟩
  intro n hn
  have hn1 : n ∉ st1.reserved := fun hc => hn (h2.1.1 n hc)
  simp only [cntArg]
  rw [h1.2.2 n hn1, h2.2.2 n hn]

/-- Composition of the invariant across the children of a comparison node
whose right operand is a tuple that is not absorbed. -/
theorem walk_comp_t {op : String} {st st1 st2 : NState} {l l2 : Expr}
    {es es2 : List Expr}
    (h1 : stepOk st st1 ∧ WFst st1 ∧ ∀ n, n ∉ st1.reserved → cntArg n l2 = cntArg n l)
    (h2 : stepOk st1 st2 ∧ WFst st2 ∧
      ∀ n, n ∉ st2.reserved → cntArgList n es2 = cntArgList n es) :
    stepOk st st2 ∧ WFst st2 ∧
      ∀ n, n ∉ st2.reserved →
        cntArg n (.comparison op l2 (.tuple es2)) =
          cntArg n (.comparison op l (.tuple es)) := by
  refine ⟨stepOk_trans h1.1 h2.1, h2.2.1, ?_⟩
  intro n hn
  have hn1 : n ∉ st1.reserved := fun hc => hn (h2.1.1 n hc)
  simp only [cntArg]
  rw [h1.2.2 n hn1, h2.2.2 n hn]

mutual
/-- Main step invariant of the traversal: starting from a well-formed
state, every walk grows the reserved set, preserves dedup-index entries,
extends the bind map with distinct freshly reserved keys, preserves
well-formedness, and does not create scalar-placeholder references to any
name left unreserved. -/
theorem walk_ok : ∀ (e : Expr) (pfx : String) (st : NState), WFst st →
    stepOk st (walkNorm pfx st e).1 ∧ WFst (walkNorm pfx st e).1 ∧
      ∀ n, n ∉ (walkNorm pfx st e).1.reserved →
        cntArg n (walkNorm pfx st e).2 = cntArg n e
  | .sqlVal t v, pfx, st => by
    intro hwf
    cases hsb : sqlToBindvar (.sqlVal t v) with
    | none =>
      simp only [walkNorm, hsb]
      exact ⟨stepOk_refl st, hwf, fun n _ => trivial⟩
    | some bval =>
      cases hlk : (st.vals.lookup (dedupKey t v) : Option String) with
      | some nm =>
        simp only [walkNorm, hsb, hlk]
        refine ⟨stepOk_refl st, hwf, ?_⟩
        intro n hn
        have h1 : cntArg n (.sqlVal .valArg (":" ++ nm)) = 0 := by
          simp only [cntArg, ite_eq_right_iff]
          intro hc
          have hnm := string_append_inj hc.2
          subst hnm
          exact absurd (hwf.1 _ _ hlk) hn
        have h2 : cntArg n (.sqlVal t v) = 0 := by
          simp only [cntArg, ite_eq_right_iff]
          intro hc
          exact absurd hc.1 (sqlToBindvar_not_valArg hsb)
        rw [h1, h2]
      | none =>
        simp only [walkNorm, hsb, hlk]
        obtain ⟨hs, hwfs⟩ := stepOk_alloc_val st pfx bval (dedupKey t v) hlk
        refine ⟨hs, hwfs hwf, ?_⟩
        intro n hn
        obtain ⟨hres, hfresh⟩ := newName_parts pfx st.counter st.reserved
        have h1 : cntArg n (.sqlVal .valArg (":" ++ (newName pfx st.counter st.reserved).1)) = 0 := by
          simp only [cntArg, ite_eq_right_iff]
          intro hc
          have heq := string_append_inj hc.2
          refine absurd ?_ hn
          rw [hres, ← heq]
          exact List.mem_cons_self _ _
        have h2 : cntArg n (.sqlVal t v) = 0 := by
          simp only [cntArg, ite_eq_right_iff]
          intro hc
          exact absurd hc.1 (sqlToBindvar_not_valArg hsb)
        rw [h1, h2]
  | .listArg v, pfx, st => by
    intro hwf
    simp only [walkNorm]
    exact ⟨stepOk_refl st, hwf, fun n _ => trivial⟩
  | .comparison op l (.tuple es), pfx, st => by
    intro hwf
    by_cases hop : op = inStr ∨ op = notInStr
    · cases htv : tupleToVals es with
      | some tvs =>
        simp only [walkNorm, hop, if_true, htv]
        obtain ⟨hs1, hwf1⟩ := stepOk_alloc_tuple st pfx ⟨.tupleT, "", tvs⟩
        have h1 := walk_ok l pfx _ (hwf1 hwf)
        refine ⟨stepOk_trans hs1 h1.1, h1.2.1, ?_⟩
        intro n hn
        simp only [cntArg]
        rw [h1.2.2 n hn, tupleToVals_cntArg (by rw [htv]; rfl)]
      | none =>
        simp only [walkNorm, hop, if_true, htv]
        have h1 := walk_ok l pfx st hwf
        have h2 := walkList_ok es pfx _ h1.2.1
        exact walk_comp_t h1 h2
    · simp only [walkNorm, hop, if_false]
      have h1 := walk_ok l pfx st hwf
      have h2 := walkList_ok es pfx _ h1.2.1
      exact walk_comp_t h1 h2
  | .comparison op l (.sqlVal t v), pfx, st => by
    intro hwf
    simp only [walkNorm]
    have h1 := walk_ok l pfx st hwf
    have h2 := walk_ok (.sqlVal t v) pfx _ h1.2.1
    exact walk_comp h1 h2
  | .comparison op l (.listArg v), pfx, st => by
    intro hwf
    simp only [walkNorm]
    have h1 := walk_ok l pfx st hwf
    have h2 := walk_ok (.listArg v) pfx _ h1.2.1
    exact walk_comp h1 h2
  | .comparison op l (.comparison op2 l2 r2), pfx, st => by
    intro hwf
    simp only [walkNorm]
    have h1 := walk_ok l pfx st hwf
    have h2 := walk_ok (.comparison op2 l2 r2) pfx _ h1.2.1
    exact walk_comp h1 h2
  | .comparison op l (.node cs), pfx, st => by
    intro hwf
    simp only [walkNorm]
    have h1 := walk_ok l pfx st hwf
    have h2 := walk_ok (.node cs) pfx _ h1.2.1
    exact walk_comp h1 h2
  | .tuple es, pfx, st => by
    intro hwf
    simp only [walkNorm]
    obtain ⟨h1, h2, h3⟩ := walkList_ok es pfx st hwf
    refine ⟨h1, h2, ?_⟩
    intro n hn
    simp only [cntArg]
    exact h3 n hn
  | .node cs, pfx, st => by
    intro hwf
    simp only [walkNorm]
    obtain ⟨h1, h2, h3⟩ := walkList_ok cs pfx st hwf
    refine ⟨h1, h2, ?_⟩
    intro n hn
    simp only [cntArg]
    exact h3 n hn
theorem walkList_ok : ∀ (es : List Expr) (pfx : String) (st : NState), WFst st →
    stepOk st (walkNormList pfx st es).1 ∧ WFst (walkNormList pfx st es).1 ∧
      ∀ n, n ∉ (walkNormList pfx st es).1.reserved →
        cntArgList n (walkNormList pfx st es).2 = cntArgList n es
  | [], pfx, st => by
    intro hwf
    simp only [walkNormList]
    exact ⟨stepOk_refl st, hwf, fun n _ => trivial⟩
  | e :: es, pfx, st => by
    intro hwf
    simp only [walkNormList]
    have h1 := walk_ok e pfx st hwf
    have h2 := walkList_ok es pfx _ h1.2.1
    refine ⟨stepOk_trans h1.1 h2.1, h2.2.1, ?_⟩
    intro n hn
    have hn1 : n ∉ (walkNorm pfx st e).1.reserved := fun hc => hn (h2.1.1 n hc)
    simp only [cntArgList]
    rw [h1.2.2 n hn1, h2.2.2 n hn]
end

/-! ### Per-key dedup invariant -/

/-- Number of entries under a given name in a bind map. -/
def countKey (n : String) (m : List (String × BindVariable)) : Nat :=
  (m.filter (fun p => p.1 == n)).length

theorem countKey_append (n : String) (a b : List (String × BindVariable)) :
    countKey n (a ++ b) = countKey n a + countKey n b := by
  simp [countKey, List.filter_append]

theorem countKey_zero {n : String} :
    ∀ {a : List (String × BindVariable)}, n ∉ a.map Prod.fst → countKey n a = 0 := by
  intro a
  induction a with
  | nil => intro _; rfl
  | cons p ps ih =>
    intro h
    simp only [List.map_cons, List.mem_cons] at h
    push_neg at h
    have hb : (p.1 == n) = false := by
      simp only [beq_eq_false_iff_ne, ne_eq]
      exact fun hc => h.1 hc.symm
    simp only [countKey, List.filter_cons, hb]
    exact ih h.2

theorem countKey_cons_self (n : String) (bv : BindVariable)
    (m : List (String × BindVariable)) :
    countKey n ((n, bv) :: m) = countKey n m + 1 := by
  simp [countKey, List.filter_cons]

theorem stepOk_binds_unres {st st2 : NState} (h : stepOk st st2) {n : String}
    (hn : n ∉ st2.reserved) :
    countKey n st2.binds = countKey n st.binds ∧
      List.lookup n st2.binds = List.lookup n st.binds := by
  obtain ⟨_, _, a, hb, _, hf⟩ := h
  have hnk : n ∉ a.map Prod.fst := fun hc => hn (hf n hc).2
  rw [hb]
  exact ⟨by rw [countKey_append, countKey_zero hnk]; omega, lookup_append_of_not_key hnk⟩

theorem stepOk_binds_res {st st2 : NState} (h : stepOk st st2) {n : String}
    (hn : n ∈ st.reserved) :
    countKey n st2.binds = countKey n st.binds ∧
      List.lookup n st2.binds = List.lookup n st.binds := by
  obtain ⟨_, _, a, hb, _, hf⟩ := h
  have hnk : n ∉ a.map Prod.fst := fun hc => (hf n hc).1 hn
  rw [hb]
  exact ⟨by rw [countKey_append, countKey_zero hnk]; omega, lookup_append_of_not_key hnk⟩

/-- Per-key account of part of a traversal, for a fixed dedup key `k`.
`cin` and `cout` count, per candidate name, the scalar-placeholder
references before and after this part; `sc` is the number of key-`k`
literal occurrences handled as scalars by this part.  If the key was
already indexed under some name, every handled occurrence turns into a
reference to exactly that name and no bind entry is added under it; if it
was not indexed and no occurrence is handled, it stays unindexed; if it
was not indexed and occurrences are handled, a single fresh name receives
them all, with exactly one new bind entry holding the conversion of a
key-`k` literal. -/
def keyInv (k : String) (st st2 : NState) (cin cout : String → Nat) (sc : Nat) : Prop :=
  match st.vals.lookup k with
  | some n => st2.vals.lookup k = some n ∧ cout n = cin n + sc
  | none =>
    if sc = 0 then st2.vals.lookup k = none
    else ∃ n bv, st2.vals.lookup k = some n ∧ n ∉ st.reserved ∧ cout n = cin n + sc ∧
      countKey n st2.binds = countKey n st.binds + 1 ∧
      List.lookup n st2.binds = some bv ∧ bv.values = [] ∧
      ∃ t v, dedupKey t v = k ∧ sqlToBindvar (.sqlVal t v) = some bv

theorem keyInv_congr {k : String} {st st2 : NState} {cin cout cin2 cout2 : String → Nat}
    {sc sc2 : Nat} (h : keyInv k st st2 cin cout sc)
    (h1 : ∀ n, cin2 n = cin n) (h2 : ∀ n, cout2 n = cout n) (h3 : sc2 = sc) :
    keyInv k st st2 cin2 cout2 sc2 := by
  rw [h3]
  unfold keyInv at h ⊢
  cases hl : st.vals.lookup k with
  | some n =>
    rw [hl] at h
    exact ⟨h.1, by rw [h1, h2]; exact h.2⟩
  | none =>
    rw [hl] at h
    by_cases hsc : sc = 0
    · rw [if_pos hsc] at h ⊢
      exact h
    · rw [if_neg hsc] at h ⊢
      obtain ⟨n, bv, ha, hb, hc, hd, he, hf, hg⟩ := h
      exact ⟨n, bv, ha, hb, by rw [h1, h2]; exact hc, hd, he, hf, hg⟩

theorem keyInv_comp {k : String} {st st1 st2 : NState} {f1 g1 f2 g2 : String → Nat}
    {sc1 sc2 : Nat} (hwf1 : WFst st1)
    (hs1 : stepOk st st1) (hs2 : stepOk st1 st2)
    (h1 : keyInv k st st1 f1 g1 sc1) (h2 : keyInv k st1 st2 f2 g2 sc2)
    (hpres1 : ∀ n, n ∉ st1.reserved → g1 n = f1 n) :
    keyInv k st st2 (fun n => f1 n + f2 n) (fun n => g1 n + g2 n) (sc1 + sc2) := by
  unfold keyInv at h1 h2 ⊢
  cases hl : st.vals.lookup k with
  | some n =>
    rw [hl] at h1
    rw [h1.1] at h2
    refine ⟨h2.1, ?_⟩
    show g1 n + g2 n = f1 n + f2 n + (sc1 + sc2)
    have := h1.2
    have := h2.2
    omega
  | none =>
    rw [hl] at h1
    by_cases hsc1 : sc1 = 0
    · rw [if_pos hsc1] at h1
      rw [h1] at h2
      by_cases hsc2 : sc2 = 0
      · rw [if_pos hsc2] at h2
        rw [if_pos (by omega)]
        exact h2
      · rw [if_neg hsc2] at h2
        rw [if_neg (by omega)]
        obtain ⟨n, bv, ha, hb, hc, hd, he, hf, hg⟩ := h2
        have hb0 : n ∉ st.reserved := fun hcon => hb (hs1.1 n hcon)
        have hck : countKey n st1.binds = countKey n st.binds :=
          (stepOk_binds_unres hs1 hb).1
        have hpn := hpres1 n hb
        refine ⟨n, bv, ha, hb0, ?_, by omega, he, hf, hg⟩
        show g1 n + g2 n = f1 n + f2 n + (sc1 + sc2)
        omega
    · rw [if_neg hsc1] at h1
      obtain ⟨n, bv, ha, hb, hc, hd, he, hf, hg⟩ := h1
      rw [ha] at h2
      have hnres1 : n ∈ st1.reserved := hwf1.1 k n ha
      have hpr := stepOk_binds_res hs2 hnres1
      rw [if_neg (by omega)]
      have h22 := h2.2
      refine ⟨n, bv, h2.1, hb, ?_, by rw [hpr.1]; omega, by rw [hpr.2]; exact he, hf, hg⟩
      show g1 n + g2 n = f1 n + f2 n + (sc1 + sc2)
      omega

/-- The tuple allocation does not touch the dedup index. -/
theorem keyInv_alloc_tuple (k : String) (st : NState) (pfx : String)
    (bv : BindVariable) (f : String → Nat) :
    keyInv k st ⟨(newName pfx st.counter st.reserved).2.1,
               (newName pfx st.counter st.reserved).2.2, st.vals,
               ((newName pfx st.counter st.reserved).1, bv) :: st.binds⟩ f f 0 := by
  unfold keyInv
  cases hl : st.vals.lookup k with
  | some n =>
    refine ⟨rfl, ?_⟩
    show f n = f n + 0
    omega
  | none =>
    rw [if_pos rfl]

theorem walkNorm_cmp_sqlVal (pfx op : String) (l : Expr) (t : ValType) (v : String)
    (st : NState) :
    walkNorm pfx st (.comparison op l (.sqlVal t v)) =
      ((walkNorm pfx (walkNorm pfx st l).1 (.sqlVal t v)).1,
        .comparison op (walkNorm pfx st l).2
          (walkNorm pfx (walkNorm pfx st l).1 (.sqlVal t v)).2) := rfl

theorem walkNorm_cmp_listArg (pfx op : String) (l : Expr) (v : String) (st : NState) :
    walkNorm pfx st (.comparison op l (.listArg v)) =
      ((walkNorm pfx (walkNorm pfx st l).1 (.listArg v)).1,
        .comparison op (walkNorm pfx st l).2
          (walkNorm pfx (walkNorm pfx st l).1 (.listArg v)).2) := rfl

theorem walkNorm_cmp_cmp (pfx op op2 : String) (l l2 r2 : Expr) (st : NState) :
    walkNorm pfx st (.comparison op l (.comparison op2 l2 r2)) =
      ((walkNorm pfx (walkNorm pfx st l).1 (.comparison op2 l2 r2)).1,
        .comparison op (walkNorm pfx st l).2
          (walkNorm pfx (walkNorm pfx st l).1 (.comparison op2 l2 r2)).2) := rfl

theorem walkNorm_cmp_node (pfx op : String) (l : Expr) (cs : List Expr) (st : NState) :
    walkNorm pfx st (.comparison op l (.node cs)) =
      ((walkNorm pfx (walkNorm pfx st l).1 (.node cs)).1,
        .comparison op (walkNorm pfx st l).2
          (walkNorm pfx (walkNorm pfx st l).1 (.node cs)).2) := rfl

theorem keyInv_id (k : String) (st : NState) (f : String → Nat) :
    keyInv k st st f f 0 := by
  unfold keyInv
  cases hl : st.vals.lookup k with
  | some n =>
    refine ⟨rfl, ?_⟩
    show f n = f n + 0
    omega
  | none => rw [if_pos rfl]

mutual
/-- Per-key behaviour of the traversal: for each dedup key, the scalar
occurrences it covers are all rewritten to one name, allocated at most once
per call with exactly one bind-map entry. -/
theorem walk_key : ∀ (e : Expr) (pfx k : String) (st : NState), WFst st →
    keyInv k st (walkNorm pfx st e).1 (fun n => cntArg n e)
      (fun n => cntArg n (walkNorm pfx st e).2) (scKey k e)
  | .sqlVal t v, pfx, k, st => by
    intro hwf
    cases hsb : sqlToBindvar (.sqlVal t v) with
    | none =>
      have hsc : scKey k (.sqlVal t v) = 0 := by
        simp [scKey, hsb]
      simp only [walkNorm, hsb]
      rw [hsc]
      exact keyInv_id k st _
    | some bval =>
      have hnva := sqlToBindvar_not_valArg hsb
      have hcntv : ∀ n : String, cntArg n (.sqlVal t v) = 0 := by
        intro n
        simp only [cntArg, ite_eq_right_iff]
        intro hc
        exact absurd hc.1 hnva
      by_cases hdk : dedupKey t v = k
      · have hsc : scKey k (.sqlVal t v) = 1 := by
          simp [scKey, hsb, hdk]
        cases hlk : (st.vals.lookup (dedupKey t v) : Option String) with
        | some nm =>
          simp only [walkNorm, hsb, hlk]
          rw [hsc]
          unfold keyInv
          rw [hdk] at hlk
          rw [hlk]
          refine ⟨rfl, ?_⟩
          show cntArg nm (.sqlVal .valArg (":" ++ nm)) = cntArg nm (.sqlVal t v) + 1
          rw [hcntv nm]
          simp [cntArg]
        | none =>
          simp only [walkNorm, hsb, hlk]
          rw [hsc]
          unfold keyInv
          rw [hdk] at hlk
          rw [hlk, if_neg (by omega)]
          obtain ⟨hres, hfresh⟩ := newName_parts pfx st.counter st.reserved
          obtain ⟨t2, v2, he, hbv, _⟩ := sqlToBindvar_some_shape hsb
          refine ⟨(newName pfx st.counter st.reserved).1, bval, ?_, hfresh, ?_, ?_, ?_, ?_, ?_⟩
          · rw [← hdk]
            exact lookup_cons_eq _ _ _
          · show cntArg _ (.sqlVal .valArg (":" ++ (newName pfx st.counter st.reserved).1)) =
              cntArg _ (.sqlVal t v) + 1
            rw [hcntv]
            simp [cntArg]
          · exact countKey_cons_self _ _ _
          · exact lookup_cons_eq _ _ _
          · rw [hbv]
          · exact ⟨t, v, hdk, hsb⟩
      · have hsc : scKey k (.sqlVal t v) = 0 := by
          simp [scKey, hdk]
        cases hlk : (st.vals.lookup (dedupKey t v) : Option String) with
        | some nm =>
          simp only [walkNorm, hsb, hlk]
          rw [hsc]
          unfold keyInv
          cases hl2 : st.vals.lookup k with
          | some n =>
            refine ⟨rfl, ?_⟩
            show cntArg n (.sqlVal .valArg (":" ++ nm)) = cntArg n (.sqlVal t v) + 0
            rw [hcntv n]
            simp only [cntArg, ite_eq_right_iff, Nat.zero_add]
            intro hc
            have hnm := string_append_inj hc.2
            subst hnm
            exact absurd (hwf.2.1 _ _ _ hlk hl2) hdk
          | none => rw [if_pos rfl]
        | none =>
          simp only [walkNorm, hsb, hlk]
          rw [hsc]
          unfold keyInv
          obtain ⟨hres, hfresh⟩ := newName_parts pfx st.counter st.reserved
          cases hl2 : st.vals.lookup k with
          | some n =>
            refine ⟨?_, ?_⟩
            · rw [lookup_cons_ne _ _ (fun hc => hdk hc.symm)]
              exact hl2
            · show cntArg n (.sqlVal .valArg (":" ++ (newName pfx st.counter st.reserved).1)) =
                cntArg n (.sqlVal t v) + 0
              rw [hcntv n]
              simp only [cntArg, ite_eq_right_iff, Nat.zero_add]
              intro hc
              have hnm := string_append_inj hc.2
              rw [← hnm] at hl2
              exact absurd (hwf.1 _ _ hl2) hfresh
          | none =>
            rw [if_pos rfl]
            rw [lookup_cons_ne _ _ (fun hc => hdk hc.symm)]
            exact hl2
  | .listArg v, pfx, k, st => by
    intro hwf
    have hsc : scKey k (.listArg v) = 0 := by simp [scKey]
    simp only [walkNorm]
    rw [hsc]
    exact keyInv_id k st _
  | .comparison op l (.tuple es), pfx, k, st => by
    intro hwf
    by_cases hop : op = inStr ∨ op = notInStr
    · cases htv : tupleToVals es with
      | some tvs =>
        have htvs : (tupleToVals es).isSome = true := by rw [htv]; rfl
        simp only [walkNorm, hop, if_true, htv]
        obtain ⟨hs1, hwf1⟩ := stepOk_alloc_tuple st pfx ⟨.tupleT, "", tvs⟩
        have t1l := walk_ok l pfx _ (hwf1 hwf)
        have kl := walk_key l pfx k _ (hwf1 hwf)
        have hcomp := keyInv_comp (hwf1 hwf) hs1 t1l.1
          (keyInv_alloc_tuple k st pfx ⟨.tupleT, "", tvs⟩ (fun _ => 0)) kl
          (fun _ _ => rfl)
        refine keyInv_congr hcomp ?_ ?_ ?_
        · intro n
          simp only [cntArg]
          rw [tupleToVals_cntArg htvs]
          omega
        · intro n
          simp only [cntArg]
          omega
        · simp [scKey, isInOp, hop, tupleConv, htvs]
      | none =>
        have htvn : tupleConv (.tuple es) = false := by
          simp [tupleConv, htv]
        simp only [walkNorm, hop, if_true, htv]
        have t1l := walk_ok l pfx st hwf
        have t1r := walkList_ok es pfx _ t1l.2.1
        have kl := walk_key l pfx k st hwf
        have kr := walkList_key es pfx k _ t1l.2.1
        have hcomp := keyInv_comp t1l.2.1 t1l.1 t1r.1 kl kr t1l.2.2
        refine keyInv_congr hcomp ?_ ?_ ?_
        · intro n; simp [cntArg]
        · intro n; simp [cntArg]
        · simp [scKey, htvn]
    · simp only [walkNorm, hop, if_false]
      have t1l := walk_ok l pfx st hwf
      have t1r := walkList_ok es pfx _ t1l.2.1
      have kl := walk_key l pfx k st hwf
      have kr := walkList_key es pfx k _ t1l.2.1
      have hcomp := keyInv_comp t1l.2.1 t1l.1 t1r.1 kl kr t1l.2.2
      refine keyInv_congr hcomp ?_ ?_ ?_
      · intro n; simp [cntArg]
      · intro n; simp [cntArg]
      · simp [scKey, isInOp, hop]
  | .comparison op l (.sqlVal t v), pfx, k, st => by
    intro hwf
    rw [walkNorm_cmp_sqlVal]
    have t1l := walk_ok l pfx st hwf
    have t1r := walk_ok (.sqlVal t v) pfx _ t1l.2.1
    have kl := walk_key l pfx k st hwf
    have kr := walk_key (.sqlVal t v) pfx k _ t1l.2.1
    have hcomp := keyInv_comp t1l.2.1 t1l.1 t1r.1 kl kr t1l.2.2
    refine keyInv_congr hcomp ?_ ?_ ?_
    · intro n; simp [cntArg]
    · intro n; simp [cntArg]
    · simp [scKey, tupleConv]
  | .comparison op l (.listArg v), pfx, k, st => by
    intro hwf
    rw [walkNorm_cmp_listArg]
    have t1l := walk_ok l pfx st hwf
    have t1r := walk_ok (.listArg v) pfx _ t1l.2.1
    have kl := walk_key l pfx k st hwf
    have kr := walk_key (.listArg v) pfx k _ t1l.2.1
    have hcomp := keyInv_comp t1l.2.1 t1l.1 t1r.1 kl kr t1l.2.2
    refine keyInv_congr hcomp ?_ ?_ ?_
    · intro n; simp [cntArg]
    · intro n; simp [cntArg]
    · simp [scKey, tupleConv]
  | .comparison op l (.comparison op2 l2 r2), pfx, k, st => by
    intro hwf
    rw [walkNorm_cmp_cmp]
    have t1l := walk_ok l pfx st hwf
    have t1r := walk_ok (.comparison op2 l2 r2) pfx _ t1l.2.1
    have kl := walk_key l pfx k st hwf
    have kr := walk_key (.comparison op2 l2 r2) pfx k _ t1l.2.1
    have hcomp := keyInv_comp t1l.2.1 t1l.1 t1r.1 kl kr t1l.2.2
    refine keyInv_congr hcomp ?_ ?_ ?_
    · intro n; simp [cntArg]
    · intro n; simp [cntArg]
    · simp [scKey, tupleConv]
  | .comparison op l (.node cs), pfx, k, st => by
    intro hwf
    rw [walkNorm_cmp_node]
    have t1l := walk_ok l pfx st hwf
    have t1r := walk_ok (.node cs) pfx _ t1l.2.1
    have kl := walk_key l pfx k st hwf
    have kr := walk_key (.node cs) pfx k _ t1l.2.1
    have hcomp := keyInv_comp t1l.2.1 t1l.1 t1r.1 kl kr t1l.2.2
    refine keyInv_congr hcomp ?_ ?_ ?_
    · intro n; simp [cntArg]
    · intro n; simp [cntArg]
    · simp [scKey, tupleConv]
  | .tuple es, pfx, k, st => by
    intro hwf
    simp only [walkNorm]
    have kr := walkList_key es pfx k st hwf
    refine keyInv_congr kr ?_ ?_ ?_
    · intro n; simp [cntArg]
    · intro n; simp [cntArg]
    · simp [scKey]
  | .node cs, pfx, k, st => by
    intro hwf
    simp only [walkNorm]
    have kr := walkList_key cs pfx k st hwf
    refine keyInv_congr kr ?_ ?_ ?_
    · intro n; simp [cntArg]
    · intro n; simp [cntArg]
    · simp [scKey]
theorem walkList_key : ∀ (es : List Expr) (pfx k : String) (st : NState), WFst st →
    keyInv k st (walkNormList pfx st es).1 (fun n => cntArgList n es)
      (fun n => cntArgList n (walkNormList pfx st es).2) (scKeyList k es)
  | [], pfx, k, st => by
    intro hwf
    have hsc : scKeyList k ([] : List Expr) = 0 := rfl
    simp only [walkNormList]
    rw [hsc]
    exact keyInv_id k st _
  | e :: es, pfx, k, st => by
    intro hwf
    simp only [walkNormList]
    have t1l := walk_ok e pfx st hwf
    have t1r := walkList_ok es pfx _ t1l.2.1
    have kl := walk_key e pfx k st hwf
    have kr := walkList_key es pfx k _ t1l.2.1
    have hcomp := keyInv_comp t1l.2.1 t1l.1 t1r.1 kl kr t1l.2.2
    refine keyInv_congr hcomp ?_ ?_ ?_
    · intro n; simp [cntArgList]
    · intro n; simp [cntArgList]
    · simp [scKeyList]
end

/-! ### First allocation -/

/-- Either part of a traversal allocates nothing and leaves the state
untouched, or the earliest bind-map entry it appends was allocated by the
name allocator running on the state as it stood when this part began. -/
def firstAlloc (pfx : String) (st st2 : NState) : Prop :=
  st2 = st ∨
  ∃ pre bv, st2.binds = pre ++ ((newName pfx st.counter st.reserved).1, bv) :: st.binds

theorem firstAlloc_comp {pfx : String} {st st1 st2 : NState}
    (h1 : firstAlloc pfx st st1) (h2 : firstAlloc pfx st1 st2) :
    firstAlloc pfx st st2 := by
  rcases h1 with h1 | ⟨pre, bv, h1⟩
  · rw [h1] at h2
    exact h2
  · rcases h2 with h2 | ⟨pre2, bv2, h2⟩
    · rw [h2]
      exact Or.inr ⟨pre, bv, h1⟩
    · refine Or.inr ⟨pre2 ++ ((newName pfx st1.counter st1.reserved).1, bv2) :: pre, bv, ?_⟩
      rw [h2, h1]
      simp [List.append_assoc]

mutual
/-- The first name any traversal part assigns comes from running the
allocator on the entry state. -/
theorem walk_first : ∀ (e : Expr) (pfx : String) (st : NState),
    firstAlloc pfx st (walkNorm pfx st e).1
  | .sqlVal t v, pfx, st => by
    cases hsb : sqlToBindvar (.sqlVal t v) with
    | none =>
      simp only [walkNorm, hsb]
      exact Or.inl rfl
    | some bval =>
      cases hlk : (st.vals.lookup (dedupKey t v) : Option String) with
      | some nm =>
        simp only [walkNorm, hsb, hlk]
        exact Or.inl rfl
      | none =>
        simp only [walkNorm, hsb, hlk]
        exact Or.inr ⟨[], bval, rfl⟩
  | .listArg v, pfx, st => by
    simp only [walkNorm]
    exact Or.inl rfl
  | .comparison op l (.tuple es), pfx, st => by
    by_cases hop : op = inStr ∨ op = notInStr
    · cases htv : tupleToVals es with
      | some tvs =>
        simp only [walkNorm, hop, if_true, htv]
        refine firstAlloc_comp ?_ (walk_first l pfx _)
        exact Or.inr ⟨[], ⟨.tupleT, "", tvs⟩, rfl⟩
      | none =>
        simp only [walkNorm, hop, if_true, htv]
        exact firstAlloc_comp (walk_first l pfx st) (walkList_first es pfx _)
    · simp only [walkNorm, hop, if_false]
      exact firstAlloc_comp (walk_first l pfx st) (walkList_first es pfx _)
  | .comparison op l (.sqlVal t v), pfx, st => by
    rw [walkNorm_cmp_sqlVal]
    exact firstAlloc_comp (walk_first l pfx st) (walk_first (.sqlVal t v) pfx _)
  | .comparison op l (.listArg v), pfx, st => by
    rw [walkNorm_cmp_listArg]
    exact firstAlloc_comp (walk_first l pfx st) (walk_first (.listArg v) pfx _)
  | .comparison op l (.comparison op2 l2 r2), pfx, st => by
    rw [walkNorm_cmp_cmp]
    exact firstAlloc_comp (walk_first l pfx st) (walk_first (.comparison op2 l2 r2) pfx _)
  | .comparison op l (.node cs), pfx, st => by
    rw [walkNorm_cmp_node]
    exact firstAlloc_comp (walk_first l pfx st) (walk_first (.node cs) pfx _)
  | .tuple es, pfx, st => by
    simp only [walkNorm]
    exact walkList_first es pfx st
  | .node cs, pfx, st => by
    simp only [walkNorm]
    exact walkList_first cs pfx st
theorem walkList_first : ∀ (es : List Expr) (pfx : String) (st : NState),
    firstAlloc pfx st (walkNormList pfx st es).1
  | [], pfx, st => by
    simp only [walkNormList]
    exact Or.inl rfl
  | e :: es, pfx, st => by
    simp only [walkNormList]
    exact firstAlloc_comp (walk_first e pfx st) (walkList_first es pfx _)
end

/-! ### The bind map is write-only -/

mutual
/-- The traversal never reads the bind map: running with any initial bind
map produces the same counter, reserved set, dedup index and rewritten
tree as running with the empty one, and appends the same entries in front
of whatever map it started from. -/
theorem walk_binds : ∀ (e : Expr) (pfx : String) (c : Nat) (r : List String)
    (v : List (String × String)) (B : List (String × BindVariable)),
    walkNorm pfx ⟨c, r, v, B⟩ e =
      (⟨(walkNorm pfx ⟨c, r, v, []⟩ e).1.counter,
        (walkNorm pfx ⟨c, r, v, []⟩ e).1.reserved,
        (walkNorm pfx ⟨c, r, v, []⟩ e).1.vals,
        (walkNorm pfx ⟨c, r, v, []⟩ e).1.binds ++ B⟩,
       (walkNorm pfx ⟨c, r, v, []⟩ e).2)
  | .sqlVal t v2, pfx, c, r, v, B => by
    cases hsb : sqlToBindvar (.sqlVal t v2) with
    | none => simp [walkNorm, hsb]
    | some bval =>
      cases hlk : (List.lookup (dedupKey t v2) v : Option String) with
      | some nm => simp only [walkNorm, hsb]; rw [hlk]; simp
      | none => simp only [walkNorm, hsb]; rw [hlk]; simp
  | .listArg v2, pfx, c, r, v, B => by
    simp [walkNorm]
  | .comparison op l (.tuple es), pfx, c, r, v, B => by
    by_cases hop : op = inStr ∨ op = notInStr
    · cases htv : tupleToVals es with
      | some tvs =>
        simp only [walkNorm, hop, if_true, htv]
        rw [walk_binds l pfx _ _ _ (((newName pfx c r).1, ⟨.tupleT, "", tvs⟩) :: B),
          walk_binds l pfx _ _ _ [((newName pfx c r).1, ⟨.tupleT, "", tvs⟩)]]
        simp
      | none =>
        simp only [walkNorm, hop, if_true, htv]
        rw [walk_binds l pfx c r v B]
        rw [walkList_binds es pfx _ _ _ ((walkNorm pfx ⟨c, r, v, []⟩ l).1.binds ++ B),
          walkList_binds es pfx _ _ _ ((walkNorm pfx ⟨c, r, v, []⟩ l).1.binds)]
        simp
    · simp only [walkNorm, hop, if_false]
      rw [walk_binds l pfx c r v B]
      rw [walkList_binds es pfx _ _ _ ((walkNorm pfx ⟨c, r, v, []⟩ l).1.binds ++ B),
        walkList_binds es pfx _ _ _ ((walkNorm pfx ⟨c, r, v, []⟩ l).1.binds)]
      simp
  | .comparison op l (.sqlVal t v2), pfx, c, r, v, B => by
    rw [walkNorm_cmp_sqlVal, walkNorm_cmp_sqlVal]
    rw [walk_binds l pfx c r v B]
    rw [walk_binds (.sqlVal t v2) pfx _ _ _ ((walkNorm pfx ⟨c, r, v, []⟩ l).1.binds ++ B),
      walk_binds (.sqlVal t v2) pfx _ _ _ ((walkNorm pfx ⟨c, r, v, []⟩ l).1.binds)]
    simp
  | .comparison op l (.listArg v2), pfx, c, r, v, B => by
    rw [walkNorm_cmp_listArg, walkNorm_cmp_listArg]
    rw [walk_binds l pfx c r v B]
    rw [walk_binds (.listArg v2) pfx _ _ _ ((walkNorm pfx ⟨c, r, v, []⟩ l).1.binds ++ B),
      walk_binds (.listArg v2) pfx _ _ _ ((walkNorm pfx ⟨c, r, v, []⟩ l).1.binds)]
    simp
  | .comparison op l (.comparison op2 l2 r2), pfx, c, r, v, B => by
    rw [walkNorm_cmp_cmp, walkNorm_cmp_cmp]
    rw [walk_binds l pfx c r v B]
    rw [walk_binds (.comparison op2 l2 r2) pfx _ _ _
        ((walkNorm pfx ⟨c, r, v, []⟩ l).1.binds ++ B),
      walk_binds (.comparison op2 l2 r2) pfx _ _ _ ((walkNorm pfx ⟨c, r, v, []⟩ l).1.binds)]
    simp
  | .comparison op l (.node cs), pfx, c, r, v, B => by
    rw [walkNorm_cmp_node, walkNorm_cmp_node]
    rw [walk_binds l pfx c r v B]
    rw [walk_binds (.node cs) pfx _ _ _ ((walkNorm pfx ⟨c, r, v, []⟩ l).1.binds ++ B),
      walk_binds (.node cs) pfx _ _ _ ((walkNorm pfx ⟨c, r, v, []⟩ l).1.binds)]
    simp
  | .tuple es, pfx, c, r, v, B => by
    simp only [walkNorm]
    rw [walkList_binds es pfx c r v B]
  | .node cs, pfx, c, r, v, B => by
    simp only [walkNorm]
    rw [walkList_binds cs pfx c r v B]
theorem walkList_binds : ∀ (es : List Expr) (pfx : String) (c : Nat) (r : List String)
    (v : List (String × String)) (B : List (String × BindVariable)),
    walkNormList pfx ⟨c, r, v, B⟩ es =
      (⟨(walkNormList pfx ⟨c, r, v, []⟩ es).1.counter,
        (walkNormList pfx ⟨c, r, v, []⟩ es).1.reserved,
        (walkNormList pfx ⟨c, r, v, []⟩ es).1.vals,
        (walkNormList pfx ⟨c, r, v, []⟩ es).1.binds ++ B⟩,
       (walkNormList pfx ⟨c, r, v, []⟩ es).2)
  | [], pfx, c, r, v, B => by
    simp [walkNormList]
  | e :: es, pfx, c, r, v, B => by
    simp only [walkNormList]
    rw [walk_binds e pfx c r v B]
    rw [walkList_binds es pfx _ _ _ ((walkNorm pfx ⟨c, r, v, []⟩ e).1.binds ++ B),
      walkList_binds es pfx _ _ _ ((walkNorm pfx ⟨c, r, v, []⟩ e).1.binds)]
    simp
end

/-! ### Scanner specification -/

theorem strDrop_colon (n : String) : strDrop (":" ++ n) 1 = n := by
  cases n with
  | mk d => rfl

theorem strDrop_coloncolon (n : String) : strDrop ("::" ++ n) 2 = n := by
  cases n with
  | mk d => rfl

/-- The placeholder name referenced directly by one node, its sigil
stripped: a literal node of placeholder kind carries a scalar reference,
a list-placeholder node a list reference, and no other node references a
name. -/
def refOf : Expr → Option String
  | .sqlVal t v => if t = .valArg then some (strDrop v 1) else none
  | .listArg v => some (strDrop v 2)
  | _ => none

mutual
/-- All nodes of a tree, the tree itself included. -/
def subterms : Expr → List Expr
  | .sqlVal t v => [.sqlVal t v]
  | .listArg v => [.listArg v]
  | .comparison op l r => .comparison op l r :: (subterms l ++ subterms r)
  | .tuple es => .tuple es :: subtermsList es
  | .node cs => .node cs :: subtermsList cs
def subtermsList : List Expr → List Expr
  | [] => []
  | e :: es => subterms e ++ subtermsList es
end

mutual
theorem getBindvars_iff : ∀ (e : Expr) (n : String),
    n ∈ GetBindvars e ↔ ∃ t, t ∈ subterms e ∧ refOf t = some n
  | .sqlVal t v, n => by
    by_cases ht : t = .valArg
    · subst ht
      simp only [GetBindvars, if_true, List.mem_singleton, subterms, refOf,
        Option.some.injEq, exists_eq_left, reduceIte]
      exact eq_comm
    · simp [GetBindvars, subterms, refOf, ht]
  | .listArg v, n => by
    simp only [GetBindvars, List.mem_singleton, subterms, refOf,
      Option.some.injEq, exists_eq_left]
    exact eq_comm
  | .comparison op l r, n => by
    simp only [GetBindvars, List.mem_append, subterms, List.mem_cons]
    constructor
    · rintro (h | h)
      · obtain ⟨t2, ht, hr⟩ := (getBindvars_iff l n).mp h
        exact ⟨t2, Or.inr (Or.inl ht), hr⟩
      · obtain ⟨t2, ht, hr⟩ := (getBindvars_iff r n).mp h
        exact ⟨t2, Or.inr (Or.inr ht), hr⟩
    · rintro ⟨t2, ht | ht, hr⟩
      · subst ht
        simp [refOf] at hr
      · rcases ht with h2 | h2
        · exact Or.inl ((getBindvars_iff l n).mpr ⟨t2, h2, hr⟩)
        · exact Or.inr ((getBindvars_iff r n).mpr ⟨t2, h2, hr⟩)
  | .tuple es, n => by
    simp only [GetBindvars, subterms, List.mem_cons]
    constructor
    · intro h
      obtain ⟨t2, ht, hr⟩ := (getBindvarsList_iff es n).mp h
      exact ⟨t2, Or.inr ht, hr⟩
    · rintro ⟨t2, ht | ht, hr⟩
      · subst ht
        simp [refOf] at hr
      · exact (getBindvarsList_iff es n).mpr ⟨t2, ht, hr⟩
  | .node cs, n => by
    simp only [GetBindvars, subterms, List.mem_cons]
    constructor
    · intro h
      obtain ⟨t2, ht, hr⟩ := (getBindvarsList_iff cs n).mp h
      exact ⟨t2, Or.inr ht, hr⟩
    · rintro ⟨t2, ht | ht, hr⟩
      · subst ht
        simp [refOf] at hr
      · exact (getBindvarsList_iff cs n).mpr ⟨t2, ht, hr⟩
theorem getBindvarsList_iff : ∀ (es : List Expr) (n : String),
    n ∈ getBindvarsList es ↔ ∃ t, t ∈ subtermsList es ∧ refOf t = some n
  | [], n => by
    simp [getBindvarsList, subtermsList]
  | e :: es, n => by
    simp only [getBindvarsList, List.mem_append, subtermsList]
    constructor
    · rintro (h | h)
      · obtain ⟨t2, ht, hr⟩ := (getBindvars_iff e n).mp h
        exact ⟨t2, Or.inl ht, hr⟩
      · obtain ⟨t2, ht, hr⟩ := (getBindvarsList_iff es n).mp h
        exact ⟨t2, Or.inr ht, hr⟩
    · rintro ⟨t2, ht, hr⟩
      rcases ht with h2 | h2
      · exact Or.inl ((getBindvars_iff e n).mpr ⟨t2, h2, hr⟩)
      · exact Or.inr ((getBindvarsList_iff es n).mpr ⟨t2, h2, hr⟩)
end

mutual
/-- A name absent from the scanned references has no scalar-placeholder
occurrences. -/
theorem cntArg_zero : ∀ (e : Expr) (n : String), n ∉ GetBindvars e → cntArg n e = 0
  | .sqlVal t v, n => by
    intro h
    simp only [cntArg, ite_eq_right_iff]
    intro hc
    obtain ⟨ht, hv⟩ := hc
    subst ht
    subst hv
    rw [GetBindvars] at h
    simp [strDrop_colon] at h
  | .listArg v, n => fun _ => rfl
  | .comparison op l r, n => by
    intro h
    simp only [GetBindvars, List.mem_append] at h
    push_neg at h
    simp only [cntArg]
    rw [cntArg_zero l n h.1, cntArg_zero r n h.2]
  | .tuple es, n => by
    intro h
    rw [GetBindvars] at h
    simp only [cntArg]
    exact cntArgList_zero es n h
  | .node cs, n => by
    intro h
    rw [GetBindvars] at h
    simp only [cntArg]
    exact cntArgList_zero cs n h
theorem cntArgList_zero : ∀ (es : List Expr) (n : String),
    n ∉ getBindvarsList es → cntArgList n es = 0
  | [], n => fun _ => rfl
  | e :: es, n => by
    intro h
    simp only [getBindvarsList, List.mem_append] at h
    push_neg at h
    simp only [cntArgList]
    rw [cntArg_zero e n h.1, cntArgList_zero es n h.2]
end

/-! ### Further helpers for the claims -/

mutual
/-- Total number of occurrences of one literal (kind and raw text) in a
tree, tuples included. -/
def cntLit (t : ValType) (v : String) : Expr → Nat
  | .sqlVal t2 v2 => if t2 = t ∧ v2 = v then 1 else 0
  | .listArg _ => 0
  | .comparison _ l r => cntLit t v l + cntLit t v r
  | .tuple es => cntLitList t v es
  | .node cs => cntLitList t v cs
def cntLitList (t : ValType) (v : String) : List Expr → Nat
  | [] => 0
  | e :: es => cntLit t v e + cntLitList t v es
end

theorem lookup_append {α : Type} (k : String) :
    ∀ (a b : List (String × α)),
    List.lookup k (a ++ b) =
      match List.lookup k a with
      | some x => some x
      | none => List.lookup k b := by
  intro a
  induction a with
  | nil => intro b; rfl
  | cons p ps ih =>
    intro b
    cases p with
    | mk k2 v2 =>
      by_cases hk : k = k2
      · subst hk
        rw [List.cons_append, lookup_cons_eq, lookup_cons_eq]
      · rw [List.cons_append, lookup_cons_ne _ _ hk, lookup_cons_ne _ _ hk, ih b]

theorem lookup_append_isSome {α : Type} {k : String} {b : List (String × α)}
    (h : (List.lookup k b).isSome = true) (a : List (String × α)) :
    (List.lookup k (a ++ b)).isSome = true := by
  rw [lookup_append]
  cases ha : List.lookup k a with
  | some x => rfl
  | none => exact h

theorem sqlToBindvar_some_cases {t : ValType} {v : String} {b : BindVariable}
    (h : sqlToBindvar (.sqlVal t v) = some b) :
    (t = .strVal ∧ b = ⟨.varBinary, v, []⟩) ∨
    (t = .intVal ∧ (parseInt64 v).isSome = true ∧ b = ⟨.int64, v, []⟩) ∨
    (t = .floatVal ∧ parseFloat64Ok v = true ∧ b = ⟨.float64, v, []⟩) := by
  cases t with
  | strVal =>
    simp only [sqlToBindvar, newValue] at h
    cases h
    exact Or.inl ⟨rfl, rfl⟩
  | intVal =>
    simp only [sqlToBindvar, newValue] at h
    by_cases hp : (parseInt64 v).isSome = true
    · rw [if_pos hp] at h
      cases h
      exact Or.inr (Or.inl ⟨rfl, hp, rfl⟩)
    · rw [if_neg hp] at h
      cases h
  | floatVal =>
    simp only [sqlToBindvar, newValue] at h
    by_cases hp : parseFloat64Ok v = true
    · rw [if_pos hp] at h
      cases h
      exact Or.inr (Or.inr ⟨rfl, hp, rfl⟩)
    · rw [if_neg hp] at h
      cases h
  | hexNum => simp [sqlToBindvar] at h
  | hexVal => simp [sqlToBindvar] at h
  | bitVal => simp [sqlToBindvar] at h
  | valArg => simp [sqlToBindvar] at h

theorem parseInt64_quote {v : String} {rest : List Char}
    (h : v.data = '\x27' :: rest) : parseInt64 v = none := by
  unfold parseInt64 parseInt64Core
  rw [h]
  cases rest with
  | nil => rfl
  | cons c cs => rfl

theorem parseFloat64Ok_quote {v : String} {rest : List Char}
    (h : v.data = '\x27' :: rest) : parseFloat64Ok v = false := by
  unfold parseFloat64Ok
  rw [h]
  rfl

/-- Two convertible literals with the same dedup key have the same raw
text (the quote sentinel separates string keys from numeric keys, and
numeric raw text never starts with a quote). -/
theorem dedupKey_text {t : ValType} {v : String} {t2 : ValType} {v2 : String}
    {b b2 : BindVariable} (h : sqlToBindvar (.sqlVal t v) = some b)
    (h2 : sqlToBindvar (.sqlVal t2 v2) = some b2)
    (hk : dedupKey t2 v2 = dedupKey t v) : v2 = v := by
  have quote_data : ∀ w : String, ("\x27" ++ w).data = '\x27' :: w.data := by
    intro w
    rw [String.data_append]
    rfl
  have hnq : ∀ (t3 : ValType) (v3 : String) (b3 : BindVariable),
      sqlToBindvar (.sqlVal t3 v3) = some b3 → t3 ≠ .strVal →
      ∀ rest : List Char, v3.data ≠ '\x27' :: rest := by
    intro t3 v3 b3 h3 hns rest hc
    rcases sqlToBindvar_some_cases h3 with ⟨h4, _⟩ | ⟨_, h4, _⟩ | ⟨_, h4, _⟩
    · exact hns h4
    · rw [parseInt64_quote hc] at h4
      cases h4
    · rw [parseFloat64Ok_quote hc] at h4
      cases h4
  by_cases hs : t = .strVal <;> by_cases hs2 : t2 = .strVal
  · rw [dedupKey, dedupKey, if_pos hs, if_pos hs2] at hk
    exact string_append_inj hk
  · rw [dedupKey, dedupKey, if_pos hs, if_neg hs2] at hk
    exfalso
    refine hnq t2 v2 b2 h2 hs2 v.data ?_
    rw [hk, quote_data]
  · rw [dedupKey, dedupKey, if_neg hs, if_pos hs2] at hk
    exfalso
    refine hnq t v b h hs v2.data ?_
    rw [← hk, quote_data]
  · rw [dedupKey, dedupKey, if_neg hs, if_neg hs2] at hk
    exact hk

/-- The conversion of a literal keeps its raw text as the scalar value. -/
theorem sqlToBindvar_value {t : ValType} {v : String} {b : BindVariable}
    (h : sqlToBindvar (.sqlVal t v) = some b) : b.value = v ∧ b.values = [] := by
  rcases sqlToBindvar_some_cases h with ⟨_, h4⟩ | ⟨_, _, h4⟩ | ⟨_, _, h4⟩ <;>
    rw [h4] <;> exact ⟨rfl, rfl⟩

mutual
/-- Occurrence counting of one convertible literal is bounded by the
occurrence counting of its dedup key. -/
theorem scLit_le_scKey : ∀ (e : Expr) (t : ValType) (v : String) (b : BindVariable),
    sqlToBindvar (.sqlVal t v) = some b → scLit t v e ≤ scKey (dedupKey t v) e
  | .sqlVal t2 v2, t, v, b => by
    intro h
    simp only [scLit, scKey]
    by_cases hc : t2 = t ∧ v2 = v
    · obtain ⟨h1, h2⟩ := hc
      subst h1
      subst h2
      rw [if_pos ⟨rfl, rfl⟩, if_pos ⟨by rw [h]; rfl, rfl⟩]
    · rw [if_neg hc]
      omega
  | .listArg v2, t, v, b => by
    intro h
    simp [scLit, scKey]
  | .comparison op l r, t, v, b => by
    intro h
    simp only [scLit, scKey]
    have h1 := scLit_le_scKey l t v b h
    have h2 := scLit_le_scKey r t v b h
    by_cases hc : isInOp op ∧ tupleConv r
    · rw [if_pos hc, if_pos hc]
      omega
    · rw [if_neg hc, if_neg hc]
      omega
  | .tuple es, t, v, b => by
    intro h
    simp only [scLit, scKey]
    exact scLitList_le_scKeyList es t v b h
  | .node cs, t, v, b => by
    intro h
    simp only [scLit, scKey]
    exact scLitList_le_scKeyList cs t v b h
theorem scLitList_le_scKeyList : ∀ (es : List Expr) (t : ValType) (v : String)
    (b : BindVariable), sqlToBindvar (.sqlVal t v) = some b →
    scLitList t v es ≤ scKeyList (dedupKey t v) es
  | [], t, v, b => by
    intro h
    simp [scLitList, scKeyList]
  | e :: es, t, v, b => by
    intro h
    simp only [scLitList, scKeyList]
    have h1 := scLit_le_scKey e t v b h
    have h2 := scLitList_le_scKeyList es t v b h
    omega
end

/-- Element-wise behaviour of walking a list of nodes: the arity is kept,
a literal element that fails conversion is left unchanged, and a literal
element that converts is rewritten to a scalar placeholder whose name has
an entry in the resulting bind map. -/
theorem walkList_elements : ∀ (es : List Expr) (pfx : String) (st : NState), WFst st →
    (walkNormList pfx st es).2.length = es.length ∧
    ∀ (i : Nat), i < es.length → ∀ (t : ValType) (v : String),
      es.getD i (.node []) = .sqlVal t v →
      (sqlToBindvar (.sqlVal t v) = none →
        (walkNormList pfx st es).2.getD i (.node []) = .sqlVal t v) ∧
      (∀ bv, sqlToBindvar (.sqlVal t v) = some bv →
        ∃ n, (walkNormList pfx st es).2.getD i (.node []) = .sqlVal .valArg (":" ++ n) ∧
          (List.lookup n (walkNormList pfx st es).1.binds).isSome = true) := by
  intro es
  induction es with
  | nil =>
    intro pfx st hwf
    constructor
    · rfl
    · intro i h1
      exact absurd h1 (by simp)
  | cons e es ih =>
    intro pfx st hwf
    have hwok := walk_ok e pfx st hwf
    have hih := ih pfx (walkNorm pfx st e).1 hwok.2.1
    have hqok := walkList_ok es pfx (walkNorm pfx st e).1 hwok.2.1
    have hcons : walkNormList pfx st (e :: es) =
        ((walkNormList pfx (walkNorm pfx st e).1 es).1,
          (walkNorm pfx st e).2 :: (walkNormList pfx (walkNorm pfx st e).1 es).2) := rfl
    constructor
    · rw [hcons]
      simp only [List.length_cons]
      rw [hih.1]
    · intro i h1 t v hget
      cases i with
      | zero =>
        have he : e = .sqlVal t v := by
          simpa using hget
        subst he
        rw [hcons]
        simp only [List.getD_cons_zero]
        constructor
        · intro hsb
          simp only [walkNorm, hsb]
        · intro bv hsb
          cases hlk : (st.vals.lookup (dedupKey t v) : Option String) with
          | some nm =>
            refine ⟨nm, ?_, ?_⟩
            · simp only [walkNorm, hsb, hlk]
            · have hsome : (List.lookup nm st.binds).isSome = true :=
                hwf.2.2 _ _ hlk
              have hst : (walkNorm pfx st (.sqlVal t v)).1 = st := by
                simp only [walkNorm, hsb, hlk]
              obtain ⟨_, _, a, hb, _, _⟩ := hqok.1
              rw [hb, hst]
              exact lookup_append_isSome hsome a
          | none =>
            refine ⟨(newName pfx st.counter st.reserved).1, ?_, ?_⟩
            · simp only [walkNorm, hsb, hlk]
            · have hst : (walkNorm pfx st (.sqlVal t v)).1.binds =
                  ((newName pfx st.counter st.reserved).1, bv) :: st.binds := by
                simp only [walkNorm, hsb, hlk]
              have hsome : (List.lookup (newName pfx st.counter st.reserved).1
                  (walkNorm pfx st (.sqlVal t v)).1.binds).isSome = true := by
                rw [hst, lookup_cons_eq]
                rfl
              obtain ⟨_, _, a, hb, _, _⟩ := hqok.1
              rw [hb]
              exact lookup_append_isSome hsome a
      | succ j =>
        have hj1 : j < es.length := by
          simp only [List.length_cons] at h1
          omega
        have hget2 : es.getD j (.node []) = .sqlVal t v := by
          simpa using hget
        have hthis := hih.2 j hj1 t v hget2
        rw [hcons]
        simp only [List.getD_cons_succ]
        exact hthis

/-! ### Fault model for malformed trees

The generic traversal is not part of the analyzed file; the spec describes
its fault behaviour, so the tree, the fault-carrying traversal, and the
scanner over such trees are modelled from the spec here.  The normalizer's
own callback and its discarding of the traversal's result are embedded
from the source. -/

/-- Modelled from the spec: an AST that may contain a malformed node, the
caller contract violation on which the traversal facility reports a
structural fault. -/
inductive MExpr where
  | bad
  | sqlVal (type : ValType) (val : String)
  | listArg (val : String)
  | comparison (op : String) (left right : MExpr)
  | tuple (elems : List MExpr)
  | node (children : List MExpr)

/-- Pass state including the traversal's fault flag; once the flag is set
the traversal is aborted and no further node is visited. -/
structure MState where
  counter : Nat
  reserved : List String
  vals : List (String × String)
  binds : List (String × BindVariable)
  fault : Bool

/-- Conversion over the fault-model tree, as in `sqlToBindvar`. -/
def sqlToBindvarM : MExpr → Option BindVariable
  | .sqlVal t v => sqlToBindvar (.sqlVal t v)
  | _ => none

/-- Tuple conversion over the fault-model tree, as in the IN / NOT IN
branch of `Normalize`. -/
def tupleToValsM : List MExpr → Option (List (QType × String))
  | [] => some []
  | e :: es =>
    match sqlToBindvarM e with
    | none => none
    | some b =>
      match tupleToValsM es with
      | none => none
      | some t => some ((b.type, b.value) :: t)

mutual
/-- The normalization traversal over the fault model: the callback is the
one embedded from `Normalize`; the traversal (modelled from the spec)
reports a structural fault upon reaching a malformed node and then aborts,
so a node reached after the fault is left unvisited (state and node kept
unchanged, modelled by the fault test heading every case). -/
def walkNormM (pfx : String) (st : MState) : MExpr → MState × MExpr
  | .bad =>
    if st.fault then (st, .bad)
    else (⟨st.counter, st.reserved, st.vals, st.binds, true⟩, .bad)
  | .sqlVal t v =>
    if st.fault then (st, .sqlVal t v)
    else
      match sqlToBindvar (.sqlVal t v) with
      | none => (st, .sqlVal t v)
      | some bval =>
        match (st.vals.lookup (dedupKey t v) : Option String) with
        | some nm => (st, .sqlVal .valArg (":" ++ nm))
        | none =>
          let r := newName pfx st.counter st.reserved
          (⟨r.2.1, r.2.2, (dedupKey t v, r.1) :: st.vals, (r.1, bval) :: st.binds, false⟩,
            .sqlVal .valArg (":" ++ r.1))
  | .listArg v => (st, .listArg v)
  | .comparison op l (.tuple es) =>
    if st.fault then (st, .comparison op l (.tuple es))
    else if op = inStr ∨ op = notInStr then
      match tupleToValsM es with
      | some tvs =>
        let r := newName pfx st.counter st.reserved
        let st1 : MState :=
          ⟨r.2.1, r.2.2, st.vals, (r.1, ⟨.tupleT, "", tvs⟩) :: st.binds, false⟩
        let pl := walkNormM pfx st1 l
        (pl.1, .comparison op pl.2 (.listArg ("::" ++ r.1)))
      | none =>
        let pl := walkNormM pfx st l
        let pr := walkNormListM pfx pl.1 es
        (pr.1, .comparison op pl.2 (.tuple pr.2))
    else
      let pl := walkNormM pfx st l
      let pr := walkNormListM pfx pl.1 es
      (pr.1, .comparison op pl.2 (.tuple pr.2))
  | .comparison op l (.bad) =>
    if st.fault then (st, .comparison op l (.bad))
    else
      let pl := walkNormM pfx st l
      let pr := walkNormM pfx pl.1 (.bad)
      (pr.1, .comparison op pl.2 pr.2)
  | .comparison op l (.sqlVal t v) =>
    if st.fault then (st, .comparison op l (.sqlVal t v))
    else
      let pl := walkNormM pfx st l
      let pr := walkNormM pfx pl.1 (.sqlVal t v)
      (pr.1, .comparison op pl.2 pr.2)
  | .comparison op l (.listArg v) =>
    if st.fault then (st, .comparison op l (.listArg v))
    else
      let pl := walkNormM pfx st l
      let pr := walkNormM pfx pl.1 (.listArg v)
      (pr.1, .comparison op pl.2 pr.2)
  | .comparison op l (.comparison op2 l2 r2) =>
    if st.fault then (st, .comparison op l (.comparison op2 l2 r2))
    else
      let pl := walkNormM pfx st l
      let pr := walkNormM pfx pl.1 (.comparison op2 l2 r2)
      (pr.1, .comparison op pl.2 pr.2)
  | .comparison op l (.node cs) =>
    if st.fault then (st, .comparison op l (.node cs))
    else
      let pl := walkNormM pfx st l
      let pr := walkNormM pfx pl.1 (.node cs)
      (pr.1, .comparison op pl.2 pr.2)
  | .tuple es =>
    if st.fault then (st, .tuple es)
    else
      let p := walkNormListM pfx st es
      (p.1, .tuple p.2)
  | .node cs =>
    if st.fault then (st, .node cs)
    else
      let p := walkNormListM pfx st cs
      (p.1, .node p.2)
def walkNormListM (pfx : String) (st : MState) : List MExpr → MState × List MExpr
  | [] => (st, [])
  | e :: es =>
    let p := walkNormM pfx st e
    let q := walkNormListM pfx p.1 es
    (q.1, p.2 :: q.2)
end

mutual
/-- Scanner over the fault model; per the spec it skips unsupported nodes
and never signals failure. -/
def GetBindvarsM : MExpr → List String
  | .sqlVal t v => if t = .valArg then [strDrop v 1] else []
  | .listArg v => [strDrop v 2]
  | .comparison _ l r => GetBindvarsM l ++ GetBindvarsM r
  | .tuple es => getBindvarsListM es
  | .node cs => getBindvarsListM cs
  | .bad => []
def getBindvarsListM : List MExpr → List String
  | [] => []
  | e :: es => GetBindvarsM e ++ getBindvarsListM es
end

/-- The normalization pass over the fault model, embedded from `Normalize`
in the source: the result of the traversal's error channel is discarded
(the source assigns it to the blank identifier) and the function returns
no failure indication of any kind. -/
def NormalizeM (stmt : MExpr) (bindVars : List (String × BindVariable))
    (pfx : String) : MExpr × List (String × BindVariable) :=
  let st : MState := ⟨1, GetBindvarsM stmt, [], bindVars, false⟩
  let r := walkNormM pfx st stmt
  (r.2, r.1.binds)

mutual
/-- After a fault, the traversal is aborted: nothing is visited and the
state and tree are left untouched. -/
theorem walkM_fault : ∀ (e : MExpr) (pfx : String) (st : MState),
    st.fault = true → walkNormM pfx st e = (st, e)
  | .bad, pfx, st => by
    intro h
    simp [walkNormM, h]
  | .sqlVal t v, pfx, st => by
    intro h
    simp [walkNormM, h]
  | .listArg v, pfx, st => by
    intro h
    simp [walkNormM]
  | .comparison op l (.tuple es), pfx, st => by
    intro h
    simp [walkNormM, h]
  | .comparison op l (.bad), pfx, st => by
    intro h
    simp [walkNormM, h]
  | .comparison op l (.sqlVal t v), pfx, st => by
    intro h
    simp [walkNormM, h]
  | .comparison op l (.listArg v), pfx, st => by
    intro h
    simp [walkNormM, h]
  | .comparison op l (.comparison op2 l2 r2), pfx, st => by
    intro h
    simp [walkNormM, h]
  | .comparison op l (.node cs), pfx, st => by
    intro h
    simp [walkNormM, h]
  | .tuple es, pfx, st => by
    intro h
    simp [walkNormM, h]
  | .node cs, pfx, st => by
    intro h
    simp [walkNormM, h]
theorem walkListM_fault : ∀ (es : List MExpr) (pfx : String) (st : MState),
    st.fault = true → walkNormListM pfx st es = (st, es)
  | [], pfx, st => by
    intro h
    simp [walkNormListM]
  | e :: es, pfx, st => by
    intro h
    have h1 := walkM_fault e pfx st h
    simp only [walkNormListM]
    rw [h1]
    have h2 := walkListM_fault es pfx st h
    rw [h2]
end

/-! ### Top-level plumbing -/

theorem WFst_init (c : Nat) (R : List String) (B : List (String × BindVariable)) :
    WFst ⟨c, R, [], B⟩ := by
  refine ⟨?_, ?_, ?_⟩
  · intro k n h
    simp [List.lookup] at h
  · intro k1 k2 n h1 h2
    simp [List.lookup] at h1
  · intro k n h
    simp [List.lookup] at h

theorem Normalize_eq (stmt : Statement) (bv : List (String × BindVariable)) (pfx : String) :
    Normalize stmt bv pfx =
      ((walkNorm pfx ⟨1, GetBindvars stmt, [], bv⟩ stmt).2,
       (walkNorm pfx ⟨1, GetBindvars stmt, [], bv⟩ stmt).1.binds) := rfl

theorem quote_append_ne (t : String) : "\x27" ++ t ≠ t := by
  intro h
  have hl := congrArg (fun s : String => s.data.length) h
  simp only [String.data_append] at hl
  simp at hl

/-! ### Claims -/

/-- Claim C1, counterexample: for `x IN (1, 2, 0xff)` — a tuple whose third
element fails typed-value conversion — `Normalize` does not leave the IN
clause unmodified: the two convertible elements are rewritten to scalar
placeholders and scalar entries for them are added to the bind-variable
map, refuting tuple atomicity as stated. -/
theorem C1_counterexample :
    Normalize (.node [.comparison inStr (.node [])
        (.tuple [.sqlVal .intVal "1", .sqlVal .intVal "2", .sqlVal .hexVal "ff"])]) [] "v" =
      (.node [.comparison inStr (.node [])
        (.tuple [.sqlVal .valArg ":v1", .sqlVal .valArg ":v2", .sqlVal .hexVal "ff"])],
       [("v2", ⟨.int64, "2", []⟩), ("v1", ⟨.int64, "1", []⟩)]) := by
  decide

/-- Claim C1, amended: when an IN / NOT IN comparison's right operand is a
tuple in which at least one element fails typed-value conversion, the
comparison is not rewritten to a list placeholder — it keeps its operator
and its right operand remains a tuple of the same arity — but the
traversal continues into the tuple: every literal element that fails
conversion is left unchanged, while every element that converts is
rewritten to a scalar placeholder whose name has an entry in the resulting
bind-variable map. -/
theorem C1_failed_tuple_partial_rewrite :
    ∀ (pfx op : String) (l : Expr) (es : List Expr) (st : NState), WFst st →
    (op = inStr ∨ op = notInStr) → tupleToVals es = none →
    ∃ l2 es2 stf,
      walkNorm pfx st (.comparison op l (.tuple es)) = (stf, .comparison op l2 (.tuple es2)) ∧
      es2.length = es.length ∧
      ∀ i, i < es.length → ∀ (t : ValType) (v : String), es.getD i (.node []) = .sqlVal t v →
        (sqlToBindvar (.sqlVal t v) = none → es2.getD i (.node []) = .sqlVal t v) ∧
        (∀ bv, sqlToBindvar (.sqlVal t v) = some bv →
          ∃ n, es2.getD i (.node []) = .sqlVal .valArg (":" ++ n) ∧
            (List.lookup n stf.binds).isSome = true) := by
  intro pfx op l es st hwf hop htv
  have hwl := walk_ok l pfx st hwf
  have helems := walkList_elements es pfx (walkNorm pfx st l).1 hwl.2.1
  refine ⟨(walkNorm pfx st l).2, (walkNormList pfx (walkNorm pfx st l).1 es).2,
    (walkNormList pfx (walkNorm pfx st l).1 es).1, ?_, helems.1, helems.2⟩
  simp only [walkNorm, hop, if_true, htv]

/-- Claim C1, witness: the amended statement applied to `x IN (1, 0xff)`
starting from the empty well-formed state. -/
theorem C1_witness :
    (WFst ⟨1, [], [], []⟩ ∧ (inStr = inStr ∨ inStr = notInStr) ∧
      tupleToVals [Expr.sqlVal .intVal "1", Expr.sqlVal .hexVal "ff"] = none) ∧
    (∃ l2 es2 stf,
      walkNorm "v" ⟨1, [], [], []⟩ (.comparison inStr (.node [])
        (.tuple [.sqlVal .intVal "1", .sqlVal .hexVal "ff"])) =
          (stf, .comparison inStr l2 (.tuple es2)) ∧
      es2.length = [Expr.sqlVal .intVal "1", Expr.sqlVal .hexVal "ff"].length ∧
      ∀ i, i < [Expr.sqlVal .intVal "1", Expr.sqlVal .hexVal "ff"].length →
        ∀ (t : ValType) (v : String),
        [Expr.sqlVal .intVal "1", Expr.sqlVal .hexVal "ff"].getD i (.node []) = .sqlVal t v →
        (sqlToBindvar (.sqlVal t v) = none → es2.getD i (.node []) = .sqlVal t v) ∧
        (∀ bv, sqlToBindvar (.sqlVal t v) = some bv →
          ∃ n, es2.getD i (.node []) = .sqlVal .valArg (":" ++ n) ∧
            (List.lookup n stf.binds).isSome = true)) :=
  ⟨⟨WFst_init 1 [] [], Or.inl rfl, by decide⟩,
    C1_failed_tuple_partial_rewrite "v" inStr (.node [])
      [Expr.sqlVal .intVal "1", Expr.sqlVal .hexVal "ff"] ⟨1, [], [], []⟩
      (WFst_init 1 [] []) (Or.inl rfl) (by decide)⟩

/-- Claim C2, counterexample: an integer literal and a float literal with
the byte-identical raw text `12` share a dedup key, so one call assigns
them the same placeholder name and a single shared bind entry, refuting
kind disambiguation for every pair drawn from string, integer and float
kinds. -/
theorem C2_counterexample :
    Normalize (.node [.sqlVal .intVal "12", .sqlVal .floatVal "12"]) [] "v" =
      (.node [.sqlVal .valArg ":v1", .sqlVal .valArg ":v1"],
       [("v1", ⟨.int64, "12", []⟩)]) := by
  decide

/-- Claim C2, amended: a string-kind literal never shares a dedup key with
an integer- or float-kind literal of byte-identical raw text — the string
key carries a quote sentinel — so whenever both kinds are rewritten in one
call they receive distinct placeholder names, each with its own
newly-inserted bind entry (integer and float literals with identical raw
text, by contrast, share one key and one entry). -/
theorem C2_string_numeric_distinct :
    ∀ (stmt : Statement) (bv : List (String × BindVariable)) (pfx txt : String)
      (tyN : ValType), (tyN = .intVal ∨ tyN = .floatVal) →
    1 ≤ scKey (dedupKey .strVal txt) stmt →
    1 ≤ scKey (dedupKey tyN txt) stmt →
    ∃ ns nn, ns ≠ nn ∧
      cntArg ns stmt = 0 ∧ cntArg nn stmt = 0 ∧
      cntArg ns (Normalize stmt bv pfx).1 = scKey (dedupKey .strVal txt) stmt ∧
      cntArg nn (Normalize stmt bv pfx).1 = scKey (dedupKey tyN txt) stmt ∧
      countKey ns (Normalize stmt bv pfx).2 = countKey ns bv + 1 ∧
      countKey nn (Normalize stmt bv pfx).2 = countKey nn bv + 1 ∧
      (List.lookup ns (Normalize stmt bv pfx).2).isSome = true ∧
      (List.lookup nn (Normalize stmt bv pfx).2).isSome = true := by
  intro stmt bv pfx txt tyN htyN hs hn
  rw [Normalize_eq]
  have hwf0 := WFst_init 1 (GetBindvars stmt) bv
  have hwok := walk_ok stmt pfx ⟨1, GetBindvars stmt, [], bv⟩ hwf0
  have hks := walk_key stmt pfx (dedupKey .strVal txt) ⟨1, GetBindvars stmt, [], bv⟩ hwf0
  have hkn := walk_key stmt pfx (dedupKey tyN txt) ⟨1, GetBindvars stmt, [], bv⟩ hwf0
  unfold keyInv at hks hkn
  rw [show (List.lookup (dedupKey .strVal txt)
    (⟨1, GetBindvars stmt, [], bv⟩ : NState).vals) = none from rfl] at hks
  rw [show (List.lookup (dedupKey tyN txt)
    (⟨1, GetBindvars stmt, [], bv⟩ : NState).vals) = none from rfl] at hkn
  rw [if_neg (by omega)] at hks
  rw [if_neg (by omega)] at hkn
  obtain ⟨ns, bvs, hs1, hs2, hs3, hs4, hs5, _, _⟩ := hks
  obtain ⟨nn, bvn, hn1, hn2, hn3, hn4, hn5, _, _⟩ := hkn
  have hkeys : dedupKey .strVal txt ≠ dedupKey tyN txt := by
    rw [dedupKey, dedupKey, if_pos rfl, if_neg (by rcases htyN with h | h <;> subst h <;> simp)]
    exact quote_append_ne txt
  have hne : ns ≠ nn := by
    intro hc
    subst hc
    exact hkeys (hwok.2.1.2.1 _ _ _ hs1 hn1)
  have hcs : cntArg ns stmt = 0 := cntArg_zero stmt ns hs2
  have hcn : cntArg nn stmt = 0 := cntArg_zero stmt nn hn2
  have hs3b : cntArg ns (walkNorm pfx ⟨1, GetBindvars stmt, [], bv⟩ stmt).2 =
      cntArg ns stmt + scKey (dedupKey .strVal txt) stmt := hs3
  have hn3b : cntArg nn (walkNorm pfx ⟨1, GetBindvars stmt, [], bv⟩ stmt).2 =
      cntArg nn stmt + scKey (dedupKey tyN txt) stmt := hn3
  refine ⟨ns, nn, hne, hcs, hcn, ?_, ?_, ?_, ?_, ?_, ?_⟩
  · show cntArg ns (walkNorm pfx ⟨1, GetBindvars stmt, [], bv⟩ stmt).2 =
      scKey (dedupKey .strVal txt) stmt
    omega
  · show cntArg nn (walkNorm pfx ⟨1, GetBindvars stmt, [], bv⟩ stmt).2 =
      scKey (dedupKey tyN txt) stmt
    omega
  · show countKey ns (walkNorm pfx ⟨1, GetBindvars stmt, [], bv⟩ stmt).1.binds =
      countKey ns bv + 1
    exact hs4
  · show countKey nn (walkNorm pfx ⟨1, GetBindvars stmt, [], bv⟩ stmt).1.binds =
      countKey nn bv + 1
    exact hn4
  · show (List.lookup ns (walkNorm pfx ⟨1, GetBindvars stmt, [], bv⟩ stmt).1.binds).isSome = true
    rw [hs5]
    rfl
  · show (List.lookup nn (walkNorm pfx ⟨1, GetBindvars stmt, [], bv⟩ stmt).1.binds).isSome = true
    rw [hn5]
    rfl

/-- Claim C2, witness: the amended statement applied to a statement with a
string literal and an integer literal both of raw text `7`. -/
theorem C2_witness :
    ((ValType.intVal = .intVal ∨ ValType.intVal = .floatVal) ∧
      1 ≤ scKey (dedupKey .strVal "7")
        (.node [.sqlVal .strVal "7", .sqlVal .intVal "7"]) ∧
      1 ≤ scKey (dedupKey .intVal "7")
        (.node [.sqlVal .strVal "7", .sqlVal .intVal "7"])) ∧
    (∃ ns nn, ns ≠ nn ∧
      cntArg ns (.node [.sqlVal .strVal "7", .sqlVal .intVal "7"]) = 0 ∧
      cntArg nn (.node [.sqlVal .strVal "7", .sqlVal .intVal "7"]) = 0 ∧
      cntArg ns (Normalize (.node [.sqlVal .strVal "7", .sqlVal .intVal "7"]) [] "v").1 =
        scKey (dedupKey .strVal "7") (.node [.sqlVal .strVal "7", .sqlVal .intVal "7"]) ∧
      cntArg nn (Normalize (.node [.sqlVal .strVal "7", .sqlVal .intVal "7"]) [] "v").1 =
        scKey (dedupKey .intVal "7") (.node [.sqlVal .strVal "7", .sqlVal .intVal "7"]) ∧
      countKey ns (Normalize (.node [.sqlVal .strVal "7", .sqlVal .intVal "7"]) [] "v").2 =
        countKey ns [] + 1 ∧
      countKey nn (Normalize (.node [.sqlVal .strVal "7", .sqlVal .intVal "7"]) [] "v").2 =
        countKey nn [] + 1 ∧
      (List.lookup ns (Normalize (.node [.sqlVal .strVal "7", .sqlVal .intVal "7"]) [] "v").2).isSome = true ∧
      (List.lookup nn (Normalize (.node [.sqlVal .strVal "7", .sqlVal .intVal "7"]) [] "v").2).isSome = true) :=
  ⟨⟨Or.inl rfl, by decide, by decide⟩,
    C2_string_numeric_distinct (.node [.sqlVal .strVal "7", .sqlVal .intVal "7"]) [] "v" "7"
      .intVal (Or.inl rfl) (by decide) (by decide)⟩

/-- Claim C3, counterexample: in `a = 5 AND b IN (5)` the integer literal
`5` occurs twice, yet the occurrence inside the fully convertible IN tuple
is not rewritten to a scalar placeholder — the whole tuple becomes a list
placeholder with its own entry — so not every occurrence is rewritten to a
scalar placeholder with the identical name, and two bind entries arise. -/
theorem C3_counterexample :
    cntLit .intVal "5" (.node [.comparison "=" (.node []) (.sqlVal .intVal "5"),
      .comparison inStr (.node []) (.tuple [.sqlVal .intVal "5"])]) = 2 ∧
    Normalize (.node [.comparison "=" (.node []) (.sqlVal .intVal "5"),
        .comparison inStr (.node []) (.tuple [.sqlVal .intVal "5"])]) [] "v" =
      (.node [.comparison "=" (.node []) (.sqlVal .valArg ":v1"),
              .comparison inStr (.node []) (.listArg "::v2")],
       [("v2", ⟨.tupleT, "", [(.int64, "5")]⟩), ("v1", ⟨.int64, "5", []⟩)]) := by
  decide

/-- Claim C3, amended: for every statement in which the same convertible
scalar literal occurs two or more times outside fully-convertible IN / NOT
IN tuples (occurrences inside such tuples are absorbed into list
placeholders instead), one call inserts exactly one scalar bind entry for
that literal's dedup key — holding the literal's raw text as a scalar
value under a name fresh to the statement — and every scalar rewrite of
that key, covering all those occurrences, produces a placeholder carrying
that identical name. -/
theorem C3_scalar_dedup :
    ∀ (stmt : Statement) (bv : List (String × BindVariable)) (pfx : String)
      (t : ValType) (v : String) (bv0 : BindVariable),
    sqlToBindvar (.sqlVal t v) = some bv0 → 2 ≤ scLit t v stmt →
    ∃ n bve, n ∉ GetBindvars stmt ∧ cntArg n stmt = 0 ∧
      cntArg n (Normalize stmt bv pfx).1 = scKey (dedupKey t v) stmt ∧
      scLit t v stmt ≤ scKey (dedupKey t v) stmt ∧
      countKey n (Normalize stmt bv pfx).2 = countKey n bv + 1 ∧
      List.lookup n (Normalize stmt bv pfx).2 = some bve ∧
      bve.value = v ∧ bve.values = [] := by
  intro stmt bv pfx t v bv0 hconv hocc
  rw [Normalize_eq]
  have hwf0 := WFst_init 1 (GetBindvars stmt) bv
  have hle := scLit_le_scKey stmt t v bv0 hconv
  have hk := walk_key stmt pfx (dedupKey t v) ⟨1, GetBindvars stmt, [], bv⟩ hwf0
  unfold keyInv at hk
  rw [show (List.lookup (dedupKey t v)
    (⟨1, GetBindvars stmt, [], bv⟩ : NState).vals) = none from rfl] at hk
  rw [if_neg (by omega)] at hk
  obtain ⟨n, bve, h1, h2, h3, h4, h5, h6, t2, v2, h7, h8⟩ := hk
  have hc0 : cntArg n stmt = 0 := cntArg_zero stmt n h2
  have hv2 : v2 = v := dedupKey_text hconv h8 h7
  obtain ⟨hval, hvals⟩ := sqlToBindvar_value h8
  have h3b : cntArg n (walkNorm pfx ⟨1, GetBindvars stmt, [], bv⟩ stmt).2 =
      cntArg n stmt + scKey (dedupKey t v) stmt := h3
  refine ⟨n, bve, h2, hc0, ?_, hle, ?_, ?_, by rw [hval, hv2], h6⟩
  · show cntArg n (walkNorm pfx ⟨1, GetBindvars stmt, [], bv⟩ stmt).2 =
      scKey (dedupKey t v) stmt
    omega
  · show countKey n (walkNorm pfx ⟨1, GetBindvars stmt, [], bv⟩ stmt).1.binds =
      countKey n bv + 1
    exact h4
  · show List.lookup n (walkNorm pfx ⟨1, GetBindvars stmt, [], bv⟩ stmt).1.binds = some bve
    exact h5

/-- Claim C3, witness: the amended statement applied to a statement with
the integer literal `7` occurring twice as scalars. -/
theorem C3_witness :
    (sqlToBindvar (.sqlVal .intVal "7") = some ⟨.int64, "7", []⟩ ∧
      2 ≤ scLit .intVal "7" (.node [.sqlVal .intVal "7", .sqlVal .intVal "7"])) ∧
    (∃ n bve, n ∉ GetBindvars (.node [.sqlVal .intVal "7", .sqlVal .intVal "7"]) ∧
      cntArg n (.node [.sqlVal .intVal "7", .sqlVal .intVal "7"]) = 0 ∧
      cntArg n (Normalize (.node [.sqlVal .intVal "7", .sqlVal .intVal "7"]) [] "v").1 =
        scKey (dedupKey .intVal "7") (.node [.sqlVal .intVal "7", .sqlVal .intVal "7"]) ∧
      scLit .intVal "7" (.node [.sqlVal .intVal "7", .sqlVal .intVal "7"]) ≤
        scKey (dedupKey .intVal "7") (.node [.sqlVal .intVal "7", .sqlVal .intVal "7"]) ∧
      countKey n (Normalize (.node [.sqlVal .intVal "7", .sqlVal .intVal "7"]) [] "v").2 =
        countKey n [] + 1 ∧
      List.lookup n (Normalize (.node [.sqlVal .intVal "7", .sqlVal .intVal "7"]) [] "v").2 =
        some bve ∧
      bve.value = "7" ∧ bve.values = []) :=
  ⟨⟨by decide, by decide⟩,
    C3_scalar_dedup (.node [.sqlVal .intVal "7", .sqlVal .intVal "7"]) [] "v"
      .intVal "7" ⟨.int64, "7", []⟩ (by decide) (by decide)⟩

/-- Claim C4: no name newly assigned by `Normalize` equals a placeholder
name referenced anywhere in the original statement, the newly assigned
names are pairwise distinct, and when any name is assigned, the first one
is the prefix followed by the lowest counter value at least one whose
rendering is not reserved (every smaller positive counter value rendering
a reserved name). -/
theorem C4_collision_free :
    ∀ (stmt : Statement) (bv : List (String × BindVariable)) (pfx : String),
    ∃ added, (Normalize stmt bv pfx).2 = added ++ bv ∧
      (added.map Prod.fst).Nodup ∧
      (∀ n, n ∈ added.map Prod.fst → n ∉ GetBindvars stmt) ∧
      (added = [] ∨ ∃ pre bv0 m, added = pre ++ [(pfx ++ natDec m, bv0)] ∧ 1 ≤ m ∧
        pfx ++ natDec m ∉ GetBindvars stmt ∧
        ∀ j, 1 ≤ j → j < m → pfx ++ natDec j ∈ GetBindvars stmt) := by
  intro stmt bv pfx
  rw [Normalize_eq]
  have hwf0 := WFst_init 1 (GetBindvars stmt) bv
  have hwok := walk_ok stmt pfx ⟨1, GetBindvars stmt, [], bv⟩ hwf0
  obtain ⟨hmono, hvals, a, hb, hnd, hf⟩ := hwok.1
  have hb2 : (walkNorm pfx ⟨1, GetBindvars stmt, [], bv⟩ stmt).1.binds = a ++ bv := hb
  refine ⟨a, hb2, hnd, ?_, ?_⟩
  · intro n hn
    exact (hf n hn).1
  · have hfa := walk_first stmt pfx ⟨1, GetBindvars stmt, [], bv⟩
    rcases hfa with hfa | ⟨pre, bv0, hfa⟩
    · left
      have hbv : a ++ bv = bv := by
        rw [← hb2, hfa]
      have hlen := congrArg List.length hbv
      simp only [List.length_append] at hlen
      exact List.eq_nil_of_length_eq_zero (by omega)
    · right
      obtain ⟨m, hm1, hm2, hm3, hm4⟩ := newName_spec pfx 1 (GetBindvars stmt)
      have hname : (newName pfx 1 (GetBindvars stmt)).1 = pfx ++ natDec m := by
        rw [hm4]
      have hfa2 : a ++ bv = (pre ++ [(pfx ++ natDec m, bv0)]) ++ bv := by
        rw [← hb2]
        rw [hfa]
        rw [show (newName pfx (⟨1, GetBindvars stmt, [], bv⟩ : NState).counter
          (⟨1, GetBindvars stmt, [], bv⟩ : NState).reserved).1 = pfx ++ natDec m from hname]
        rw [List.append_assoc]
        rfl
      exact ⟨pre, bv0, m, List.append_cancel_right hfa2, hm1, hm3, hm2⟩

/-- Claim C5, counterexample: when the caller-supplied bind map already
holds a key that is not referenced in the statement, `Normalize` can
assign that very name again and bind it, changing what the map associates
with a key present when the call began — the value of `v1` is overwritten
from the caller's `5` to the statement's `7`. -/
theorem C5_counterexample :
    Normalize (.node [.sqlVal .intVal "7"]) [("v1", ⟨.int64, "5", []⟩)] "v" =
      (.node [.sqlVal .valArg ":v1"],
       [("v1", ⟨.int64, "7", []⟩), ("v1", ⟨.int64, "5", []⟩)]) ∧
    List.lookup "v1" (Normalize (.node [.sqlVal .intVal "7"])
        [("v1", ⟨.int64, "5", []⟩)] "v").2 = some ⟨.int64, "7", []⟩ ∧
    List.lookup "v1" [("v1", (⟨.int64, "5", []⟩ : BindVariable))] =
      some ⟨.int64, "5", []⟩ := by
  decide

/-- Claim C5, amended: `Normalize` only adds entries in front of the
caller's map (never removing any), the keys it inserts are pairwise
distinct and distinct from every placeholder name referenced in the
statement, and consequently any key that is referenced in the statement
keeps exactly the association it had when the call began.  (A caller key
that is not referenced in the statement is not protected, as the
counterexample shows.) -/
theorem C5_insertion_only :
    ∀ (stmt : Statement) (bv : List (String × BindVariable)) (pfx : String),
    ∃ added, (Normalize stmt bv pfx).2 = added ++ bv ∧
      (added.map Prod.fst).Nodup ∧
      (∀ n, n ∈ added.map Prod.fst → n ∉ GetBindvars stmt) ∧
      ∀ kk, kk ∈ GetBindvars stmt →
        List.lookup kk (Normalize stmt bv pfx).2 = List.lookup kk bv := by
  intro stmt bv pfx
  rw [Normalize_eq]
  have hwf0 := WFst_init 1 (GetBindvars stmt) bv
  have hwok := walk_ok stmt pfx ⟨1, GetBindvars stmt, [], bv⟩ hwf0
  obtain ⟨hmono, hvals, a, hb, hnd, hf⟩ := hwok.1
  have hb2 : (walkNorm pfx ⟨1, GetBindvars stmt, [], bv⟩ stmt).1.binds = a ++ bv := hb
  refine ⟨a, hb2, hnd, fun n hn => (hf n hn).1, ?_⟩
  intro kk hkk
  show List.lookup kk (walkNorm pfx ⟨1, GetBindvars stmt, [], bv⟩ stmt).1.binds =
    List.lookup kk bv
  rw [hb2]
  refine lookup_append_of_not_key ?_
  intro hc
  exact (hf kk hc).1 hkk

/-- Claim C6: typed-value conversion maps a string-kind literal to an
opaque byte-string value holding the raw bytes verbatim, an integer-kind
literal to a 64-bit signed integer value exactly when its raw decimal text
parses (in range), a float-kind literal to a 64-bit float value exactly
when its raw text parses, and every other literal kind and every
non-literal node to no value at all; being a pure function it has no side
effects and never yields a partially built value. -/
theorem C6_sqlToBindvar_spec :
    (∀ v : String, sqlToBindvar (.sqlVal .strVal v) = some ⟨.varBinary, v, []⟩) ∧
    (∀ v : String, (parseInt64 v).isSome = true →
      sqlToBindvar (.sqlVal .intVal v) = some ⟨.int64, v, []⟩) ∧
    (∀ v : String, parseInt64 v = none → sqlToBindvar (.sqlVal .intVal v) = none) ∧
    (∀ (v : String) (i : Int), parseInt64 v = some i → -(2 ^ 63) ≤ i ∧ i ≤ 2 ^ 63 - 1) ∧
    (∀ v : String, parseFloat64Ok v = true →
      sqlToBindvar (.sqlVal .floatVal v) = some ⟨.float64, v, []⟩) ∧
    (∀ v : String, parseFloat64Ok v = false → sqlToBindvar (.sqlVal .floatVal v) = none) ∧
    (∀ v : String, sqlToBindvar (.sqlVal .hexNum v) = none ∧
      sqlToBindvar (.sqlVal .hexVal v) = none ∧
      sqlToBindvar (.sqlVal .bitVal v) = none ∧
      sqlToBindvar (.sqlVal .valArg v) = none) ∧
    (∀ v : String, sqlToBindvar (.listArg v) = none) ∧
    (∀ (op : String) (l r : Expr), sqlToBindvar (.comparison op l r) = none) ∧
    (∀ es : List Expr, sqlToBindvar (.tuple es) = none) ∧
    (∀ cs : List Expr, sqlToBindvar (.node cs) = none) := by
  refine ⟨?_, ?_, ?_, ?_, ?_, ?_, ?_, ?_, ?_, ?_, ?_⟩
  · intro v
    rfl
  · intro v h
    simp [sqlToBindvar, newValue, h]
  · intro v h
    simp [sqlToBindvar, newValue, h]
  · intro v i h
    unfold parseInt64 at h
    have hcore : ∀ (neg : Bool) (ds : List Char), parseInt64Core neg ds = some i →
        -(2 ^ 63) ≤ i ∧ i ≤ 2 ^ 63 - 1 := by
      intro neg ds hc
      unfold parseInt64Core at hc
      cases hpd : parseDigits ds with
      | none =>
        rw [hpd] at hc
        cases hc
      | some n =>
        rw [hpd] at hc
        revert hc
        show (if (-(2 : Int) ^ 63 ≤ (if neg = true then (-(n : Int)) else (n : Int))) ∧
              ((if neg = true then (-(n : Int)) else (n : Int)) ≤ (2 : Int) ^ 63 - 1) then
            some (if neg = true then (-(n : Int)) else (n : Int)) else none) = some i →
          -(2 : Int) ^ 63 ≤ i ∧ i ≤ (2 : Int) ^ 63 - 1
        intro hc
        by_cases hcond : (-(2 : Int) ^ 63 ≤ (if neg = true then (-(n : Int)) else (n : Int))) ∧
            ((if neg = true then (-(n : Int)) else (n : Int)) ≤ (2 : Int) ^ 63 - 1)
        · rw [if_pos hcond] at hc
          cases hc
          exact hcond
        · rw [if_neg hcond] at hc
          cases hc
    split at h
    · exact hcore _ _ h
    · exact hcore _ _ h
    · exact hcore _ _ h
  · intro v h
    simp [sqlToBindvar, newValue, h]
  · intro v h
    simp [sqlToBindvar, newValue, h]
  · intro v
    exact ⟨rfl, rfl, rfl, rfl⟩
  · intro v
    rfl
  · intro op l r
    rfl
  · intro es
    rfl
  · intro cs
    rfl

/-- Claim C7: the scanner returns exactly the set of placeholder names
referenced anywhere in the tree — a name is scanned if and only if some
node of the tree is a scalar reference (leading sigil stripped) or a list
reference (two leading sigil characters stripped) to it — and, being a
pure function of the statement, it never mutates it; on a statement
containing one scalar reference to `v1` and one list reference to `v2`
the scanned names are exactly `v1` and `v2`. -/
theorem C7_getBindvars_spec :
    (∀ (stmt : Statement) (n : String),
      n ∈ GetBindvars stmt ↔ ∃ t, t ∈ subterms stmt ∧ refOf t = some n) ∧
    GetBindvars (.node [.sqlVal .valArg ":v1", .listArg "::v2"]) = ["v1", "v2"] :=
  ⟨getBindvars_iff, by decide⟩

/-- Claim C8, counterexample: on a tree holding a malformed node followed
by a convertible literal, the traversal reports a structural fault and
aborts (the literal after the fault is left unnormalized), yet `Normalize`
— which assigns the traversal's error to the blank identifier and returns
nothing — hands the caller an ordinary result indistinguishable from a
zero-fault run over a statement needing no rewrites: no failure
propagates. -/
theorem C8_counterexample :
    (walkNormM "v" ⟨1, GetBindvarsM (.node [.bad, .sqlVal .intVal "5"]), [], [], false⟩
        (.node [.bad, .sqlVal .intVal "5"])).1.fault = true ∧
    NormalizeM (.node [.bad, .sqlVal .intVal "5"]) [] "v" =
      (.node [.bad, .sqlVal .intVal "5"], []) :=
  ⟨rfl, rfl⟩

/-- Claim C8, amended: `Normalize` discards the traversal's fault: when
the walk of a malformed tree faults at its first node and aborts — leaving
every following node untouched whatever it is — `Normalize` still returns
normally with the tree and the untouched bind map, giving the caller no
failure indication whatsoever. -/
theorem C8_fault_discarded :
    ∀ (pfx : String) (bv : List (String × BindVariable)) (es : List MExpr),
    NormalizeM (.node (.bad :: es)) bv pfx = (.node (.bad :: es), bv) := by
  intro pfx bv es
  have hw := walkListM_fault es pfx
    ⟨1, GetBindvarsM (.node (.bad :: es)), [], bv, true⟩ rfl
  simp [NormalizeM, walkNormM, walkNormListM, hw]

/-- Claim C9: the name allocator always terminates and returns the name
formed from the prefix and the decimal rendering of the lowest counter
value at least the starting one whose name is not reserved; it reserves
exactly that name and returns the successful counter value plus one for
the next call. -/
theorem C9_newName_total_spec :
    ∀ (pfx : String) (counter : Nat) (reserved : List String),
    ∃ m, counter ≤ m ∧
      (∀ j, counter ≤ j → j < m → pfx ++ natDec j ∈ reserved) ∧
      pfx ++ natDec m ∉ reserved ∧
      newName pfx counter reserved =
        (pfx ++ natDec m, m + 1, (pfx ++ natDec m) :: reserved) :=
  newName_spec

/-- Claim C10: `Normalize` is deterministic and depends on the bind map
only through which associations it holds: two runs on the same statement
and prefix whose initial bind maps associate every key identically produce
the same rewritten statement and bind maps that again associate every key
identically. -/
theorem C10_deterministic :
    ∀ (stmt : Statement) (b1 b2 : List (String × BindVariable)) (pfx : String),
    (∀ kk, List.lookup kk b1 = List.lookup kk b2) →
    (Normalize stmt b1 pfx).1 = (Normalize stmt b2 pfx).1 ∧
    ∀ kk, List.lookup kk (Normalize stmt b1 pfx).2 =
      List.lookup kk (Normalize stmt b2 pfx).2 := by
  intro stmt b1 b2 pfx hb
  rw [Normalize_eq, Normalize_eq]
  rw [walk_binds stmt pfx 1 (GetBindvars stmt) [] b1,
    walk_binds stmt pfx 1 (GetBindvars stmt) [] b2]
  constructor
  · rfl
  · intro kk
    show List.lookup kk
        ((walkNorm pfx ⟨1, GetBindvars stmt, [], []⟩ stmt).1.binds ++ b1) =
      List.lookup kk
        ((walkNorm pfx ⟨1, GetBindvars stmt, [], []⟩ stmt).1.binds ++ b2)
    rw [lookup_append, lookup_append]
    cases List.lookup kk (walkNorm pfx ⟨1, GetBindvars stmt, [], []⟩ stmt).1.binds with
    | some x => rfl
    | none => exact hb kk

/-- Claim C10, witness: the determinism statement applied to a one-literal
statement with two extensionally equal initial maps. -/
theorem C10_witness :
    (∀ kk, List.lookup kk ([] : List (String × BindVariable)) =
      List.lookup kk ([] : List (String × BindVariable))) ∧
    ((Normalize (.node [.sqlVal .intVal "5"]) [] "v").1 =
      (Normalize (.node [.sqlVal .intVal "5"]) [] "v").1 ∧
    ∀ kk, List.lookup kk (Normalize (.node [.sqlVal .intVal "5"]) [] "v").2 =
      List.lookup kk (Normalize (.node [.sqlVal .intVal "5"]) [] "v").2) :=
  ⟨fun _ => rfl,
    C10_deterministic (.node [.sqlVal .intVal "5"]) [] [] "v" (fun _ => rfl)⟩

end SqlNorm
